import Mathlib

/-!
# go-blockchain: the ledger core of `blockchain/blockchain.go`

A shallow embedding of the ledger (`InitBlockchain`, `ContinueBlockChain`, `AddBlock`),
the chain iterator (`Iterator`, `Next`), the UTXO reconstruction (`FindUTXO`), the
transaction locator (`FindTransaction`) and the signing and verification coordinator
(`SignTransaction`, `VerifyTransaction`), followed by theorems about them.

Conventions of the embedding.

* A Go `[]byte` is a `List (Fin 256)`; `nil` and the empty slice are both `[]` (the source
  only ever asks for `len` and `bytes.Compare`, which do not tell them apart).
* The badger database is a finite map from keys to values, embedded as a function
  `Bytes → Option Bytes`; `txn.Get` on a missing key is the error that `Handle` turns into a
  panic. Failures of the storage engine itself are outside the model.
* A Go `map[string]V` is an association list without repeated keys, in insertion order.
* `log.Panic`, `runtime.Goexit` and non-termination are the three faults of `Fault`. Every
  `for { ... }` loop over the iterator takes a fuel argument bounding the number of calls of
  `Next`; running out of fuel is `Fault.timeout`.
* `Block`, `Transaction` and the functions on them (`Serialize`, `Deserialize`, `CreateBlock`,
  `Genesis`, `CoinbaseTx`, `IsCoinbase`, `Verify`) live in files of the package that are not
  part of this development; the functions are the fields of a `Codec` parameter.
-/

namespace GoBlockchain

/-! ## Data model -/

/-- A Go byte slice. -/
abbrev Bytes := List (Fin 256)

/-- Modelled from the spec: the `TxOutput` record (declared outside `blockchain.go`), which
"holds a value amount and a spending condition (ownership lock)". -/
structure TxOutput where
  Value : Int
  PubKeyHash : Bytes
deriving DecidableEq, Repr

/-- Modelled from the spec: the `TxInput` record (declared outside `blockchain.go`), which
"references a prior transaction id and an output index within it"; `Sig` stands for the
signature data it carries. `blockchain.go` reads `ID` and `Out` only. -/
structure TxInput where
  ID : Bytes
  Out : Int
  Sig : Bytes
deriving DecidableEq, Repr

/-- Modelled from the spec: the `TxOutputs` record (declared outside `blockchain.go`), the
value type of the UTXO map; `blockchain.go` reads and writes its field `Outputs`. -/
structure TxOutputs where
  Outputs : List TxOutput
deriving DecidableEq, Repr

/-- Modelled from the spec: the `Transaction` record (declared outside `blockchain.go`):
"id, inputs: ordered sequence of Input, outputs: ordered sequence of Output". -/
structure Transaction where
  ID : Bytes
  Inputs : List TxInput
  Outputs : List TxOutput
deriving DecidableEq, Repr

/-- Modelled from the spec: the `Block` record (declared outside `blockchain.go`), "relevant
fields only: hash, prevHash, transactions". -/
structure Block where
  Hash : Bytes
  Transactions : List Transaction
  PrevHash : Bytes
deriving DecidableEq, Repr

/-- The ways a call can fail to return: `log.Panic` (also through `Handle`),
`runtime.Goexit`, and exhaustion of the fuel of a loop. -/
inductive Fault where
  | panic
  | goexit
  | timeout
deriving DecidableEq, Repr

/-! ## The key-value store -/

/-- The contents of the badger database. -/
abbrev Store := Bytes → Option Bytes

/-- A database without keys, as `badger.Open` creates it when there is no manifest. -/
def Store.empty : Store := fun _ => none

/-- The effect of `txn.Set(key, value)`. -/
def Store.set (db : Store) (key value : Bytes) : Store :=
  fun k => if k = key then some value else db k

/-- The bytes of `[]byte("lh")`. -/
def lhKey : Bytes := [108, 104]

/-! ## Go maps with string keys -/

/-- A Go `map[string]V`: association list, at most one pair per key. -/
abbrev GoMap (V : Type) := List (String × V)

/-- The value under `k`, if the key is present. -/
def GoMap.get {V : Type} : GoMap V → String → Option V
  | [], _ => none
  | (k', v) :: rest, k => if k' = k then some v else GoMap.get rest k

/-- The effect of `m[k] = v`: overwrite the pair of `k` if there is one, else add one. -/
def GoMap.set {V : Type} : GoMap V → String → V → GoMap V
  | [], k, v => [(k, v)]
  | (k', v') :: rest, k, v =>
    if k' = k then (k, v) :: rest else (k', v') :: GoMap.set rest k v

/-! ## `hex.EncodeToString` -/

/-- The lower-case hexadecimal digit of a number below 16. -/
def hexDigit (n : Nat) : Char :=
  if n < 10 then Char.ofNat (48 + n) else Char.ofNat (87 + n)

/-- Two digits per byte, high nibble first: Go's `hex.EncodeToString`. -/
def hexEncodeToString (b : Bytes) : String :=
  String.mk (b.flatMap fun x => [hexDigit (x.val / 16), hexDigit (x.val % 16)])

/-! ## The functions of the package that `blockchain.go` calls -/

/-- The block and transaction functions used by `blockchain.go` and defined elsewhere in the
package. `Deserialize` and `Verify` may panic. -/
structure Codec where
  Serialize : Block → Bytes
  Deserialize : Bytes → Except Fault Block
  CreateBlock : List Transaction → Bytes → Block
  Genesis : Transaction → Block
  CoinbaseTx : String → String → Transaction
  IsCoinbase : Transaction → Bool
  Verify : Transaction → GoMap Transaction → Except Fault Bool

/-- The constant `genesisData`. -/
def genesisData : String := "First Transaction from Genesis"

/-! ## Ledger and iterator -/

/-- The `Blockchain` struct: the cached tip hash and the database. -/
structure Blockchain where
  LastHash : Bytes
  Database : Store

/-- The `BlockchainIterator` struct. -/
structure BlockchainIterator where
  CurrentHash : Bytes
  Database : Store

/-- `InitBlockchain(address)`; `dbExists` is the result of `DBexists()`. -/
def InitBlockchain (c : Codec) (dbExists : Bool) (address : String) : Except Fault Blockchain :=
  if dbExists then .error .goexit
  else
    let db : Store := Store.empty
    let cbtx := c.CoinbaseTx address genesisData
    let genesis := c.Genesis cbtx
    let db := db.set genesis.Hash (c.Serialize genesis)
    let db := db.set lhKey genesis.Hash
    let lastHash := genesis.Hash
    .ok ⟨lastHash, db⟩

/-- `ContinueBlockChain(address)`; `dbExists` is the result of `DBexists()` and `db` the
contents of the database that `badger.Open` finds. -/
def ContinueBlockChain (_c : Codec) (dbExists : Bool) (db : Store) (_address : String) :
    Except Fault Blockchain :=
  if dbExists = false then .error .goexit
  else
    match db lhKey with
    | none => .error .panic
    | some val => .ok ⟨val, db⟩

/-- `chain.Iterator()`. -/
def Blockchain.Iterator (chain : Blockchain) : BlockchainIterator :=
  ⟨chain.LastHash, chain.Database⟩

/-- `iter.Next()`: the block stored under `CurrentHash`, and the iterator moved to its
`PrevHash`. -/
def BlockchainIterator.Next (c : Codec) (iter : BlockchainIterator) :
    Except Fault (Block × BlockchainIterator) :=
  match iter.Database iter.CurrentHash with
  | none => .error .panic
  | some encodedBlock =>
    match c.Deserialize encodedBlock with
    | .error e => .error e
    | .ok block => .ok (block, { iter with CurrentHash := block.PrevHash })

/-! ## `FindUTXO` -/

/-- The inner loop `for _, spentOut := range spentTxs[txID]` with its `continue Outputs`:
whether `outIdx` is among the recorded indices (a missing key is the nil slice). -/
def isSpent (spentTxs : GoMap (List Int)) (txID : String) (outIdx : Nat) : Bool :=
  match spentTxs.get txID with
  | none => false
  | some idxs => idxs.any fun spentOut => spentOut == (outIdx : Int)

/-- The loop labelled `Outputs`, from index `outIdx` on. -/
def outputsLoop (spentTxs : GoMap (List Int)) (txID : String) :
    Nat → List TxOutput → GoMap TxOutputs → GoMap TxOutputs
  | _, [], UTXO => UTXO
  | outIdx, out :: rest, UTXO =>
    if isSpent spentTxs txID outIdx then outputsLoop spentTxs txID (outIdx + 1) rest UTXO
    else
      let outs := (UTXO.get txID).getD ⟨[]⟩
      let outs : TxOutputs := ⟨outs.Outputs ++ [out]⟩
      outputsLoop spentTxs txID (outIdx + 1) rest (UTXO.set txID outs)

/-- The loop `for _, in := range tx.Inputs` recording spent outputs. -/
def inputsLoop : List TxInput → GoMap (List Int) → GoMap (List Int)
  | [], spentTxs => spentTxs
  | inp :: rest, spentTxs =>
    let inTxID := hexEncodeToString inp.ID
    inputsLoop rest (spentTxs.set inTxID (((spentTxs.get inTxID).getD []) ++ [inp.Out]))

/-- The body of `for _, tx := range block.Transactions` in `FindUTXO`. -/
def utxoTx (c : Codec) (st : GoMap TxOutputs × GoMap (List Int)) (tx : Transaction) :
    GoMap TxOutputs × GoMap (List Int) :=
  let txID := hexEncodeToString tx.ID
  let UTXO := outputsLoop st.2 txID 0 tx.Outputs st.1
  if c.IsCoinbase tx = false then (UTXO, inputsLoop tx.Inputs st.2) else (UTXO, st.2)

/-- The outer `for { ... }` of `FindUTXO`. -/
def FindUTXO.loop (c : Codec) :
    Nat → BlockchainIterator → GoMap TxOutputs × GoMap (List Int) →
      Except Fault (GoMap TxOutputs)
  | 0, _, _ => .error .timeout
  | fuel + 1, iter, st =>
    match iter.Next c with
    | .error e => .error e
    | .ok (block, iter') =>
      let st' := block.Transactions.foldl (utxoTx c) st
      if block.PrevHash.length = 0 then .ok st'.1 else FindUTXO.loop c fuel iter' st'

/-- `chain.FindUTXO()`. -/
def Blockchain.FindUTXO (c : Codec) (fuel : Nat) (chain : Blockchain) :
    Except Fault (GoMap TxOutputs) :=
  FindUTXO.loop c fuel chain.Iterator ([], [])

/-! ## `FindTransaction`, `VerifyTransaction`, `AddBlock`, `SignTransaction`, `DBexists` -/

/-- The `for { ... }` of `FindTransaction`; `none` is the pair of the zero transaction and
the error "Transaction does not exist". -/
def FindTransaction.loop (c : Codec) (ID : Bytes) :
    Nat → BlockchainIterator → Except Fault (Option Transaction)
  | 0, _ => .error .timeout
  | fuel + 1, iter =>
    match iter.Next c with
    | .error e => .error e
    | .ok (block, iter') =>
      match block.Transactions.find? (fun tx => decide (tx.ID = ID)) with
      | some tx => .ok (some tx)
      | none => if block.PrevHash.length = 0 then .ok none else FindTransaction.loop c ID fuel iter'

/-- `bc.FindTransaction(ID)`. -/
def Blockchain.FindTransaction (c : Codec) (fuel : Nat) (bc : Blockchain) (ID : Bytes) :
    Except Fault (Option Transaction) :=
  FindTransaction.loop c ID fuel bc.Iterator

/-- The loop of `VerifyTransaction` (and of `SignTransaction`) that collects the previous
transactions; a failed lookup is `Handle(err)`. -/
def prevTXsLoop (c : Codec) (fuel : Nat) (bc : Blockchain) :
    List TxInput → GoMap Transaction → Except Fault (GoMap Transaction)
  | [], prevTXs => .ok prevTXs
  | inp :: rest, prevTXs =>
    match bc.FindTransaction c fuel inp.ID with
    | .error e => .error e
    | .ok none => .error .panic
    | .ok (some prevTX) =>
      prevTXsLoop c fuel bc rest (prevTXs.set (hexEncodeToString prevTX.ID) prevTX)

/-- `bc.VerifyTransaction(tx)`. -/
def Blockchain.VerifyTransaction (c : Codec) (fuel : Nat) (bc : Blockchain) (tx : Transaction) :
    Except Fault Bool :=
  if c.IsCoinbase tx then .ok true
  else
    match prevTXsLoop c fuel bc tx.Inputs [] with
    | .error e => .error e
    | .ok prevTXs => c.Verify tx prevTXs

/-- The loop of `AddBlock` that verifies every transaction and panics on the first one
that does not verify. -/
def AddBlock.verifyLoop (c : Codec) (fuel : Nat) (chain : Blockchain) :
    List Transaction → Except Fault Unit
  | [] => .ok ()
  | tx :: rest =>
    match chain.VerifyTransaction c fuel tx with
    | .error e => .error e
    | .ok false => .error .panic
    | .ok true => AddBlock.verifyLoop c fuel chain rest

/-- `chain.AddBlock(transactions)`: the result of the call and the ledger after it. -/
def Blockchain.AddBlock (c : Codec) (fuel : Nat) (chain : Blockchain)
    (transactions : List Transaction) : Except Fault Block × Blockchain :=
  match AddBlock.verifyLoop c fuel chain transactions with
  | .error e => (.error e, chain)
  | .ok () =>
    match chain.Database lhKey with
    | none => (.error .panic, chain)
    | some lastHash =>
      let newBlock := c.CreateBlock transactions lastHash
      let db := chain.Database.set newBlock.Hash (c.Serialize newBlock)
      let db := db.set lhKey newBlock.Hash
      (.ok newBlock, ⟨newBlock.Hash, db⟩)

/-- `bc.SignTransaction(tx, prevKey)`: the result of the call and the transaction after it.
`sign` is the method `tx.Sign`, defined outside `blockchain.go`; it returns its result and
the transaction as it leaves it. -/
def Blockchain.SignTransaction {Key : Type} (c : Codec)
    (sign : Transaction → Key → GoMap Transaction → Except Fault Unit × Transaction)
    (fuel : Nat) (bc : Blockchain) (tx : Transaction) (prevKey : Key) :
    Except Fault Unit × Transaction :=
  match prevTXsLoop c fuel bc tx.Inputs [] with
  | .error e => (.error e, tx)
  | .ok prevTXs => sign tx prevKey prevTXs

/-- `DBexists()`; `manifest` tells whether the file `.tmp/blocks/MANIFEST` exists, so
that `os.IsNotExist(err)` is its negation. -/
def DBexists (manifest : Bool) : Bool :=
  if (!manifest) then false else true

/-! ## Notions used to state the properties -/

/-- The blocks met when following `PrevHash` from the iterator's position until a block with
empty `PrevHash` has been returned: the traversal that `FindUTXO` and `FindTransaction` make,
one call of `Next` per unit of fuel. A chain is well formed when this returns a list. -/
def chainBlocks (c : Codec) : Nat → BlockchainIterator → Except Fault (List Block)
  | 0, _ => .error .timeout
  | fuel + 1, iter =>
    match iter.Next c with
    | .error e => .error e
    | .ok (block, iter') =>
      if block.PrevHash.length = 0 then .ok [block]
      else
        match chainBlocks c fuel iter' with
        | .error e => .error e
        | .ok rest => .ok (block :: rest)

/-- Calling `Next` a given number of times: the blocks returned, in order, and the iterator
after the last call. -/
def nextN (c : Codec) : Nat → BlockchainIterator → Except Fault (List Block × BlockchainIterator)
  | 0, iter => .ok ([], iter)
  | n + 1, iter =>
    match iter.Next c with
    | .error e => .error e
    | .ok (block, iter') =>
      match nextN c n iter' with
      | .error e => .error e
      | .ok (rest, iter'') => .ok (block :: rest, iter'')

/-- The transactions of a list of blocks in the order of the scan: block after block, and
inside a block in the order of its list. -/
def scanTxs (bs : List Block) : List Transaction :=
  bs.flatMap fun b => b.Transactions

/-- The output indices recorded as spent under `key` by the transactions `pre`: the `Out` of
every input of a non-coinbase transaction whose referenced ID has hex encoding `key`. -/
def recorded (c : Codec) (pre : List Transaction) (key : String) : List Int :=
  (pre.filter fun s => !c.IsCoinbase s).flatMap fun s =>
    (s.Inputs.filter fun inp => decide (hexEncodeToString inp.ID = key)).map fun inp => inp.Out

/-- The outputs of `outs` whose index, counted from `start`, is not in `sp`. -/
def kept (sp : List Int) : Nat → List TxOutput → List TxOutput
  | _, [] => []
  | start, out :: rest =>
    if (start : Int) ∈ sp then kept sp (start + 1) rest else out :: kept sp (start + 1) rest

/-- The outputs listed under `key` by a backward pass over `pre ++ txs`, as contributed by
the transactions `txs`, `pre` having been visited before them. -/
def unspentFor (c : Codec) (key : String) : List Transaction → List Transaction → List TxOutput
  | _, [] => []
  | pre, tx :: rest =>
    (if hexEncodeToString tx.ID = key then kept (recorded c pre key) 0 tx.Outputs else [])
      ++ unspentFor c key (pre ++ [tx]) rest

/-- The first transaction with the given ID in a scan. -/
def findTx (scan : List Transaction) (ID : Bytes) : Option Transaction :=
  scan.find? fun tx => decide (tx.ID = ID)

/-- The context that `VerifyTransaction` builds when every lookup is answered from `scan`. -/
def prevTXsIn (scan : List Transaction) : List TxInput → GoMap Transaction →
    Except Fault (GoMap Transaction)
  | [], prevTXs => .ok prevTXs
  | inp :: rest, prevTXs =>
    match findTx scan inp.ID with
    | none => .error .panic
    | some prevTX => prevTXsIn scan rest (prevTXs.set (hexEncodeToString prevTX.ID) prevTX)

/-- The answer of `VerifyTransaction` on a chain whose scan is `scan`. -/
def verifyIn (c : Codec) (scan : List Transaction) (tx : Transaction) : Except Fault Bool :=
  if c.IsCoinbase tx then .ok true
  else
    match prevTXsIn scan tx.Inputs [] with
    | .error e => .error e
    | .ok prevTXs => c.Verify tx prevTXs

/-- A block that `Genesis` or `CreateBlock` returns. -/
def Produced (c : Codec) (b : Block) : Prop :=
  (∃ cb, b = c.Genesis cb) ∨ (∃ txs prev, b = c.CreateBlock txs prev)

/-- Modelled from the spec: the properties of `Serialize`, `Deserialize`, `CreateBlock` and
`Genesis` (defined outside `blockchain.go`) that the ledger relies on. A serialised block
deserialises to itself; `CreateBlock` "builds a new block from `transactions` and that
previous hash"; `Genesis` "wraps it in a genesis block (empty `prevHash`)"; the hash is
"unique, content-derived", and as a key of the store it is neither empty nor the reserved
key `"lh"`. -/
structure Codec.Lawful (c : Codec) : Prop where
  deserialize_serialize : ∀ b, c.Deserialize (c.Serialize b) = .ok b
  create_transactions : ∀ txs prev, (c.CreateBlock txs prev).Transactions = txs
  create_prevHash : ∀ txs prev, (c.CreateBlock txs prev).PrevHash = prev
  genesis_transactions : ∀ cb, (c.Genesis cb).Transactions = [cb]
  genesis_prevHash : ∀ cb, (c.Genesis cb).PrevHash = []
  hash_ne_nil : ∀ b, Produced c b → b.Hash ≠ []
  hash_ne_lh : ∀ b, Produced c b → b.Hash ≠ lhKey
  hash_unique : ∀ b b', Produced c b → Produced c b' → b.Hash = b'.Hash → b = b'

/-- Modelled from the spec: the properties of `CoinbaseTx` and `IsCoinbase` (defined outside
`blockchain.go`) that the ledger relies on. `CoinbaseTx` "constructs a coinbase transaction
crediting `address`", so one with an output, and "a coinbase transaction has no real
inputs": the output index of its inputs is negative. -/
structure Codec.CoinbaseLawful (c : Codec) : Prop where
  coinbaseTx_isCoinbase : ∀ addr data, c.IsCoinbase (c.CoinbaseTx addr data) = true
  coinbaseTx_outputs : ∀ addr data, (c.CoinbaseTx addr data).Outputs ≠ []
  coinbase_inputs : ∀ tx, c.IsCoinbase tx = true → ∀ inp ∈ tx.Inputs, inp.Out < 0

/-- The ledgers that the operations of the package build, with the blocks appended so far,
most recent first: `InitBlockchain` on a fresh directory, then any number of successful
`AddBlock` calls, the process possibly restarting in between through
`ContinueBlockChain` on the database left behind. -/
inductive Reached (c : Codec) (address : String) : List Block → Blockchain → Prop where
  | init {chain : Blockchain} :
      InitBlockchain c false address = .ok chain →
      Reached c address [c.Genesis (c.CoinbaseTx address genesisData)] chain
  | add {bs : List Block} {chain chain' : Blockchain} {fuel : Nat}
      {txs : List Transaction} {b : Block} :
      Reached c address bs chain →
      chain.AddBlock c fuel txs = (.ok b, chain') →
      Reached c address (b :: bs) chain'
  | resume {bs : List Block} {chain chain' : Blockchain} {address' : String} :
      Reached c address bs chain →
      ContinueBlockChain c true chain.Database address' = .ok chain' →
      Reached c address bs chain'

/-- Each block of the list names the next one as its predecessor, and the last block has
an empty `PrevHash`. -/
def linked : List Block → Prop
  | [] => False
  | [g] => g.PrevHash = []
  | b :: b' :: rest => b.PrevHash = b'.Hash ∧ linked (b' :: rest)

/-- The state of a ledger whose appended blocks are `bs`, most recent first: the tip is
cached and stored under the reserved key, every block is stored under its hash, the blocks
come from `Genesis` and `CreateBlock`, their hashes differ, and they are linked. -/
structure Inv (c : Codec) (bs : List Block) (chain : Blockchain) : Prop where
  lh : chain.Database lhKey = some chain.LastHash
  tip : bs.head?.map (fun b => b.Hash) = some chain.LastHash
  stored : ∀ b ∈ bs, chain.Database b.Hash = some (c.Serialize b)
  produced : ∀ b ∈ bs, Produced c b
  nodup : (bs.map fun b => b.Hash).Nodup
  link : linked bs

/-- Every input of a non-coinbase transaction of a block references the ID of a transaction
of an older block. -/
def resolved (c : Codec) : List Block → Prop
  | [] => True
  | b :: older =>
    (∀ s ∈ b.Transactions, c.IsCoinbase s = true ∨
      ∀ inp ∈ s.Inputs, ∃ t ∈ scanTxs older, t.ID = inp.ID) ∧ resolved c older

/-- Step 2a of the algorithm of the UTXO Reconstructor in the spec, from output index `i`
on: "for each output index `i` of `tx`, skip it if `(tx.id, i)` is already recorded in
`spent`; otherwise append the output to `unspent[tx.id]`". The set `spent` is a list of
pairs of a hex ID and an index. -/
def specOutputs (spent : List (String × Int)) (key : String) :
    Nat → List TxOutput → GoMap TxOutputs → GoMap TxOutputs
  | _, [], unspent => unspent
  | i, out :: rest, unspent =>
    if (key, (i : Int)) ∈ spent then specOutputs spent key (i + 1) rest unspent
    else
      specOutputs spent key (i + 1) rest
        (unspent.set key ⟨((unspent.get key).getD ⟨[]⟩).Outputs ++ [out]⟩)

/-- Step 2 of the algorithm of the spec for one transaction: step 2a, then step 2b, "if `tx`
is not coinbase, for each input, record `(input.id, input.outIndex)` into `spent`". -/
def specTx (c : Codec) (st : GoMap TxOutputs × List (String × Int)) (tx : Transaction) :
    GoMap TxOutputs × List (String × Int) :=
  let unspent := specOutputs st.2 (hexEncodeToString tx.ID) 0 tx.Outputs st.1
  let spent :=
    if c.IsCoinbase tx then st.2
    else st.2 ++ tx.Inputs.map fun inp => (hexEncodeToString inp.ID, inp.Out)
  (unspent, spent)

/-- The single backward pass of the spec over the blocks of a chain, tip first: `spent` and
`unspent` start empty, every transaction of every block is processed by step 2, and the
result is `unspent`. -/
def specReconstructUTXO (c : Codec) (bs : List Block) : GoMap TxOutputs :=
  ((scanTxs bs).foldl (specTx c) ([], [])).1

/-! ## A concrete instance of the package functions

Blocks are serialised field by field, numbers in unary; the hash of a block is its contents
behind a marker byte. A signature is valid when it repeats the lock of the output it
spends. -/

/-- A number in unary: that many bytes 1, then a byte 0. -/
def encNat : Nat → Bytes
  | 0 => [0]
  | n + 1 => 1 :: encNat n

/-- Reads a number written by `encNat`; returns it with the bytes that follow. -/
def decNat : Bytes → Option (Nat × Bytes)
  | [] => none
  | x :: rest =>
    if x = 0 then some (0, rest)
    else match decNat rest with
      | none => none
      | some (n, rest') => some (n + 1, rest')

/-- An integer: a sign byte, then the absolute value. -/
def encInt (z : Int) : Bytes := (if z < 0 then 1 else 0) :: encNat z.natAbs

/-- Reads an integer written by `encInt`. -/
def decInt : Bytes → Option (Int × Bytes)
  | [] => none
  | s :: rest =>
    match decNat rest with
    | none => none
    | some (n, rest') => some (if s = 0 then (n : Int) else -(n : Int), rest')

/-- A byte slice: its length, then its bytes. -/
def encBytes (b : Bytes) : Bytes := encNat b.length ++ b

/-- Reads a byte slice written by `encBytes`. -/
def decBytes (bs : Bytes) : Option (Bytes × Bytes) :=
  match decNat bs with
  | none => none
  | some (n, rest) => if rest.length < n then none else some (rest.take n, rest.drop n)

/-- Reads `n` items with the reader `d`. -/
def decItems {α : Type} (d : Bytes → Option (α × Bytes)) : Nat → Bytes → Option (List α × Bytes)
  | 0, bs => some ([], bs)
  | n + 1, bs =>
    match d bs with
    | none => none
    | some (a, rest) =>
      match decItems d n rest with
      | none => none
      | some (l, rest') => some (a :: l, rest')

/-- A list: its length, then its items. -/
def encList {α : Type} (e : α → Bytes) (l : List α) : Bytes := encNat l.length ++ l.flatMap e

/-- Reads a list written by `encList`. -/
def decList {α : Type} (d : Bytes → Option (α × Bytes)) (bs : Bytes) : Option (List α × Bytes) :=
  match decNat bs with
  | none => none
  | some (n, rest) => decItems d n rest

/-- An output: value, then lock. -/
def encOutput (o : TxOutput) : Bytes := encInt o.Value ++ encBytes o.PubKeyHash

/-- Reads an output written by `encOutput`. -/
def decOutput (bs : Bytes) : Option (TxOutput × Bytes) :=
  match decInt bs with
  | none => none
  | some (v, rest) =>
    match decBytes rest with
    | none => none
    | some (p, rest') => some (⟨v, p⟩, rest')

/-- An input: referenced ID, output index, signature. -/
def encInput (i : TxInput) : Bytes := encBytes i.ID ++ (encInt i.Out ++ encBytes i.Sig)

/-- Reads an input written by `encInput`. -/
def decInput (bs : Bytes) : Option (TxInput × Bytes) :=
  match decBytes bs with
  | none => none
  | some (id, rest) =>
    match decInt rest with
    | none => none
    | some (out, rest') =>
      match decBytes rest' with
      | none => none
      | some (sig, rest'') => some (⟨id, out, sig⟩, rest'')

/-- A transaction: ID, inputs, outputs. -/
def encTx (t : Transaction) : Bytes :=
  encBytes t.ID ++ (encList encInput t.Inputs ++ encList encOutput t.Outputs)

/-- Reads a transaction written by `encTx`. -/
def decTx (bs : Bytes) : Option (Transaction × Bytes) :=
  match decBytes bs with
  | none => none
  | some (id, rest) =>
    match decList decInput rest with
    | none => none
    | some (ins, rest') =>
      match decList decOutput rest' with
      | none => none
      | some (outs, rest'') => some (⟨id, ins, outs⟩, rest'')

/-- The serialisation of the instance: the transactions, the hash, and last the previous
hash, which takes the remaining bytes. -/
def encBlock (b : Block) : Bytes :=
  encList encTx b.Transactions ++ (encBytes b.Hash ++ b.PrevHash)

/-- Reads a block written by `encBlock`. -/
def decBlock (bs : Bytes) : Option Block :=
  match decList decTx bs with
  | none => none
  | some (txs, rest) =>
    match decBytes rest with
    | none => none
    | some (hash, prev) => some ⟨hash, txs, prev⟩

/-- The hash of the instance: a marker byte, then the transactions and the previous hash. -/
def toyHash (txs : List Transaction) (prev : Bytes) : Bytes :=
  1 :: (encList encTx txs ++ prev)

/-- The bytes of a string of ASCII characters. -/
def strBytes (s : String) : Bytes := s.toList.map fun ch => Fin.ofNat ch.toNat

/-- The coinbase test of the instance: a single input with empty ID and index `-1`. -/
def toyIsCoinbase (tx : Transaction) : Bool :=
  match tx.Inputs with
  | [inp] => inp.ID.length == 0 && inp.Out == -1
  | _ => false

/-- The signature check of the instance: every input names a transaction of the context
and an output of it, and carries the lock of that output. -/
def toyVerify (tx : Transaction) (prevTXs : GoMap Transaction) : Except Fault Bool :=
  .ok (tx.Inputs.all fun inp =>
    match prevTXs.get (hexEncodeToString inp.ID) with
    | none => false
    | some prevTX =>
      match prevTX.Outputs.get? inp.Out.toNat with
      | none => false
      | some out => decide (0 ≤ inp.Out) && decide (inp.Sig = out.PubKeyHash))

/-- The instance. -/
def toyCodec : Codec where
  Serialize := encBlock
  Deserialize bs :=
    match decBlock bs with
    | some b => .ok b
    | none => .error .panic
  CreateBlock txs prev := ⟨toyHash txs prev, txs, prev⟩
  Genesis cb := ⟨toyHash [cb] [], [cb], []⟩
  CoinbaseTx addr data :=
    ⟨strBytes (data ++ addr), [⟨[], -1, strBytes data⟩], [⟨100, strBytes addr⟩]⟩
  IsCoinbase := toyIsCoinbase
  Verify := toyVerify

/-! ## Concrete ledgers used as examples -/

/-- A transaction with one output. -/
def exFund : Transaction := ⟨[1], [⟨[], -1, []⟩], [⟨5, [65]⟩]⟩

/-- A transaction spending output 0 of `exFund`. -/
def exSpend : Transaction := ⟨[2], [⟨[1], 0, [65]⟩], [⟨3, [66]⟩, ⟨2, [65]⟩]⟩

/-- The hash of `exBlock`. -/
def exHash : Bytes := toyHash [exFund, exSpend] []

/-- A block holding `exFund` and, after it, `exSpend`. -/
def exBlock : Block := ⟨exHash, [exFund, exSpend], []⟩

/-- A ledger whose chain is the single block `exBlock`. -/
def exChain : Blockchain :=
  ⟨exHash, (Store.empty.set exHash (toyCodec.Serialize exBlock)).set lhKey exHash⟩

/-- The UTXO map of `exChain`. -/
def exUTXO : GoMap TxOutputs :=
  [("01", ⟨[⟨5, [65]⟩]⟩), ("02", ⟨[⟨3, [66]⟩, ⟨2, [65]⟩]⟩)]

deriving instance DecidableEq for Except

/-- The genesis coinbase transaction of the example ledgers. -/
def exCoinbase : Transaction := toyCodec.CoinbaseTx "A" genesisData

/-- The genesis block of the example ledgers. -/
def exGenesis : Block := toyCodec.Genesis exCoinbase

/-- The ledger that `InitBlockchain` returns for the address `"A"`. -/
def exLedger0 : Blockchain :=
  ⟨exGenesis.Hash,
    (Store.empty.set exGenesis.Hash (toyCodec.Serialize exGenesis)).set lhKey exGenesis.Hash⟩

/-- A transaction that spends the genesis output: 60 to `"B"`, 40 back to `"A"`. -/
def exPay : Transaction :=
  ⟨[7], [⟨exCoinbase.ID, 0, strBytes "A"⟩], [⟨60, strBytes "B"⟩, ⟨40, strBytes "A"⟩]⟩

/-- The block that `AddBlock` builds from `exPay` on `exLedger0`. -/
def exBlock1 : Block := toyCodec.CreateBlock [exPay] exGenesis.Hash

/-- The ledger `exLedger0` after `AddBlock` of `exPay`. -/
def exLedger1 : Blockchain :=
  ⟨exBlock1.Hash,
    (exLedger0.Database.set exBlock1.Hash (toyCodec.Serialize exBlock1)).set lhKey exBlock1.Hash⟩

/-- The block that `AddBlock` builds on `exLedger1` from a second copy of the genesis
coinbase transaction. -/
def exBlock2 : Block := toyCodec.CreateBlock [exCoinbase] exBlock1.Hash

/-- The ledger `exLedger1` after `AddBlock` of the second copy of the genesis coinbase
transaction. -/
def exLedger2 : Blockchain :=
  ⟨exBlock2.Hash,
    (exLedger1.Database.set exBlock2.Hash (toyCodec.Serialize exBlock2)).set lhKey exBlock2.Hash⟩

/-- A transaction whose input references an ID that no transaction has. -/
def exOrphan : Transaction := ⟨[9], [⟨[8], 0, []⟩], [⟨1, strBytes "B"⟩]⟩

/-- A coinbase transaction with the ID of the genesis coinbase transaction and another
output. -/
def exDup : Transaction := ⟨exCoinbase.ID, [⟨[], -1, []⟩], [⟨7, strBytes "B"⟩]⟩

/-- The block that `AddBlock` builds from `exDup` on `exLedger0`. -/
def exBlockD : Block := toyCodec.CreateBlock [exDup] exGenesis.Hash

/-- The ledger `exLedger0` after `AddBlock` of `exDup`. -/
def exLedgerD : Blockchain :=
  ⟨exBlockD.Hash,
    (exLedger0.Database.set exBlockD.Hash (toyCodec.Serialize exBlockD)).set lhKey exBlockD.Hash⟩

/-- A signing method for the examples: it writes the key into the signature of every
input. -/
def exSign (tx : Transaction) (key : Bytes) (_prevTXs : GoMap Transaction) :
    Except Fault Unit × Transaction :=
  (.ok (), { tx with Inputs := tx.Inputs.map fun inp => { inp with Sig := key } })

/-- The block that `AddBlock` builds from `exDup` on `exLedger1`. -/
def exBlock3 : Block := toyCodec.CreateBlock [exDup] exBlock1.Hash

/-- The ledger `exLedger1` after `AddBlock` of `exDup`. -/
def exLedger3 : Blockchain :=
  ⟨exBlock3.Hash,
    (exLedger1.Database.set exBlock3.Hash (toyCodec.Serialize exBlock3)).set lhKey exBlock3.Hash⟩

/-! ## Go maps -/

theorem GoMap.get_set {V : Type} (m : GoMap V) (k k' : String) (v : V) :
    (m.set k v).get k' = if k = k' then some v else m.get k' := by
  induction m with
  | nil => simp [GoMap.set, GoMap.get]
  | cons p rest ih =>
    obtain ⟨k0, v0⟩ := p
    by_cases h0 : k0 = k
    · subst h0
      by_cases h1 : k0 = k' <;> simp [GoMap.set, GoMap.get, h1]
    · by_cases h1 : k0 = k'
      · subst h1
        have h2 : ¬ k = k0 := fun h => h0 h.symm
        simp [GoMap.set, GoMap.get, h0, h2]
      · simp [GoMap.set, GoMap.get, h0, h1, ih]

/-! ## Hexadecimal encoding -/

theorem hexDigit_injective : ∀ a b : Fin 16, hexDigit a.val = hexDigit b.val → a = b := by
  decide

theorem hexByte_injective (x y : Fin 256)
    (h : [hexDigit (x.val / 16), hexDigit (x.val % 16)]
      = [hexDigit (y.val / 16), hexDigit (y.val % 16)]) : x = y := by
  have hx := x.isLt
  have hy := y.isLt
  simp only [List.cons.injEq, and_true] at h
  have h1 := hexDigit_injective ⟨x.val / 16, by omega⟩ ⟨y.val / 16, by omega⟩ h.1
  have h2 := hexDigit_injective ⟨x.val % 16, Nat.mod_lt _ (by decide)⟩
    ⟨y.val % 16, Nat.mod_lt _ (by decide)⟩ h.2
  simp only [Fin.mk.injEq] at h1 h2
  apply Fin.ext
  omega

theorem hexChars_injective (a b : Bytes)
    (h : (a.flatMap fun x => [hexDigit (x.val / 16), hexDigit (x.val % 16)])
      = b.flatMap fun x => [hexDigit (x.val / 16), hexDigit (x.val % 16)]) : a = b := by
  induction a generalizing b with
  | nil =>
    cases b with
    | nil => rfl
    | cons y ys => simp [List.flatMap_cons] at h
  | cons x xs ih =>
    cases b with
    | nil => simp [List.flatMap_cons] at h
    | cons y ys =>
      simp only [List.flatMap_cons, List.cons_append, List.nil_append, List.cons.injEq] at h
      have hxy := hexByte_injective x y (by simp [h.1, h.2.1])
      rw [hxy, ih ys h.2.2]

theorem hexEncodeToString_injective (a b : Bytes)
    (h : hexEncodeToString a = hexEncodeToString b) : a = b :=
  hexChars_injective a b (congrArg String.data h)

theorem hexEncodeToString_eq_iff (a b : Bytes) :
    hexEncodeToString a = hexEncodeToString b ↔ a = b :=
  ⟨hexEncodeToString_injective a b, fun h => by rw [h]⟩

/-! ## The concrete instance is lawful -/

theorem decNat_encNat (n : Nat) (rest : Bytes) : decNat (encNat n ++ rest) = some (n, rest) := by
  induction n with
  | zero => simp [encNat, decNat]
  | succ k ih =>
    show decNat (1 :: (encNat k ++ rest)) = _
    rw [decNat, if_neg (by decide), ih]

theorem decInt_encInt (z : Int) (rest : Bytes) : decInt (encInt z ++ rest) = some (z, rest) := by
  simp only [encInt, List.cons_append, decInt, decNat_encNat]
  by_cases hz : z < 0
  · simp only [hz, if_true, Option.some.injEq, Prod.mk.injEq, and_true]
    rw [if_neg (by decide)]
    omega
  · simp only [hz, if_false, if_true, Option.some.injEq, Prod.mk.injEq, and_true]
    omega

theorem decBytes_encBytes (b rest : Bytes) : decBytes (encBytes b ++ rest) = some (b, rest) := by
  simp [encBytes, decBytes, List.append_assoc, decNat_encNat]

theorem decItems_flatMap {α : Type} (e : α → Bytes) (d : Bytes → Option (α × Bytes))
    (h : ∀ a rest, d (e a ++ rest) = some (a, rest)) (rest : Bytes) :
    ∀ l : List α, decItems d l.length (l.flatMap e ++ rest) = some (l, rest)
  | [] => by simp [decItems]
  | a :: l => by
    simp only [List.length_cons, decItems, List.flatMap_cons, List.append_assoc, h,
      decItems_flatMap e d h rest l]

theorem decList_encList {α : Type} (e : α → Bytes) (d : Bytes → Option (α × Bytes))
    (h : ∀ a rest, d (e a ++ rest) = some (a, rest)) (l : List α) (rest : Bytes) :
    decList d (encList e l ++ rest) = some (l, rest) := by
  simp only [encList, decList, List.append_assoc, decNat_encNat, decItems_flatMap e d h]

theorem decOutput_encOutput (o : TxOutput) (rest : Bytes) :
    decOutput (encOutput o ++ rest) = some (o, rest) := by
  simp only [encOutput, decOutput, List.append_assoc, decInt_encInt, decBytes_encBytes]

theorem decInput_encInput (i : TxInput) (rest : Bytes) :
    decInput (encInput i ++ rest) = some (i, rest) := by
  simp only [encInput, decInput, List.append_assoc, decInt_encInt, decBytes_encBytes]

theorem decTx_encTx (t : Transaction) (rest : Bytes) :
    decTx (encTx t ++ rest) = some (t, rest) := by
  simp only [encTx, decTx, List.append_assoc, decBytes_encBytes,
    decList_encList encInput decInput decInput_encInput,
    decList_encList encOutput decOutput decOutput_encOutput]

theorem decBlock_encBlock (b : Block) : decBlock (encBlock b) = some b := by
  simp only [encBlock, decBlock, decList_encList encTx decTx decTx_encTx, decBytes_encBytes]

theorem toyHash_injective (txs txs' : List Transaction) (prev prev' : Bytes)
    (h : toyHash txs prev = toyHash txs' prev') : txs = txs' ∧ prev = prev' := by
  simp only [toyHash, List.cons.injEq, true_and] at h
  have h1 := congrArg (decList decTx) h
  simp only [decList_encList encTx decTx decTx_encTx, Option.some.injEq, Prod.mk.injEq] at h1
  exact h1

theorem toy_produced (b : Block) (h : Produced toyCodec b) :
    ∃ txs prev, b = ⟨toyHash txs prev, txs, prev⟩ := by
  rcases h with ⟨cb, rfl⟩ | ⟨txs, prev, rfl⟩
  · exact ⟨[cb], [], rfl⟩
  · exact ⟨txs, prev, rfl⟩

theorem toyCodec_lawful : toyCodec.Lawful where
  deserialize_serialize b := by
    simp [toyCodec, decBlock_encBlock]
  create_transactions _ _ := rfl
  create_prevHash _ _ := rfl
  genesis_transactions _ := rfl
  genesis_prevHash _ := rfl
  hash_ne_nil b hb := by
    obtain ⟨txs, prev, rfl⟩ := toy_produced b hb
    simp [toyHash]
  hash_ne_lh b hb := by
    obtain ⟨txs, prev, rfl⟩ := toy_produced b hb
    simp only [toyHash, lhKey, ne_eq, List.cons.injEq, not_and]
    intro h
    exact absurd h (by decide)
  hash_unique b b' hb hb' h := by
    obtain ⟨txs, prev, rfl⟩ := toy_produced b hb
    obtain ⟨txs', prev', rfl⟩ := toy_produced b' hb'
    obtain ⟨h1, h2⟩ := toyHash_injective _ _ _ _ h
    subst h1 h2
    rfl

theorem toyCodec_coinbaseLawful : toyCodec.CoinbaseLawful where
  coinbaseTx_isCoinbase _ _ := rfl
  coinbaseTx_outputs _ _ := by simp [toyCodec]
  coinbase_inputs tx h inp hinp := by
    simp only [toyCodec, toyIsCoinbase] at h
    split at h
    · rename_i i0 hi
      rw [hi] at hinp
      simp only [List.mem_singleton] at hinp
      subst hinp
      simp only [Bool.and_eq_true, beq_iff_eq] at h
      omega
    · exact absurd h (by simp)

/-! ## The store and the iterator -/

theorem Store.set_same (db : Store) (key value : Bytes) : (db.set key value) key = some value := by
  simp [Store.set]

theorem Store.set_ne (db : Store) (key value k : Bytes) (h : k ≠ key) :
    (db.set key value) k = db k := by
  simp [Store.set, h]

/-- With a lawful codec `Next` returns the block whose serialisation is stored under the
current hash. -/
theorem Next_of_stored (c : Codec) (hc : c.Lawful) (iter : BlockchainIterator) (b : Block)
    (h : iter.Database iter.CurrentHash = some (c.Serialize b)) :
    iter.Next c = .ok (b, ⟨b.PrevHash, iter.Database⟩) := by
  simp [BlockchainIterator.Next, h, hc.deserialize_serialize]

/-! ## Following the chain -/

theorem chainBlocks_length (c : Codec) :
    ∀ (fuel : Nat) (iter : BlockchainIterator) (bs : List Block),
      chainBlocks c fuel iter = .ok bs → 0 < bs.length ∧ bs.length ≤ fuel
  | 0, _, _, h => by simp [chainBlocks] at h
  | fuel + 1, iter, bs, h => by
    simp only [chainBlocks] at h
    split at h
    · exact absurd h (by simp)
    · rename_i block iter' _
      split at h
      · injection h with h
        subst h
        simp
      · split at h
        · exact absurd h (by simp)
        · rename_i rest hrest
          injection h with h
          subst h
          have := chainBlocks_length c fuel iter' rest hrest
          simp only [List.length_cons]
          omega

theorem chainBlocks_mono (c : Codec) :
    ∀ (fuel fuel' : Nat) (iter : BlockchainIterator) (bs : List Block),
      chainBlocks c fuel iter = .ok bs → fuel ≤ fuel' → chainBlocks c fuel' iter = .ok bs
  | 0, _, _, _, h, _ => by simp [chainBlocks] at h
  | fuel + 1, 0, _, _, _, hle => by omega
  | fuel + 1, fuel' + 1, iter, bs, h, hle => by
    simp only [chainBlocks] at h ⊢
    split at h
    · exact absurd h (by simp)
    · rename_i block iter' hnext
      split at h
      · rename_i hp
        simp [hp, h]
      · rename_i hp
        split at h
        · exact absurd h (by simp)
        · rename_i rest hrest
          have := chainBlocks_mono c fuel fuel' iter' rest hrest (by omega)
          simp [hp, this, h]

theorem chainBlocks_exact (c : Codec) :
    ∀ (fuel : Nat) (iter : BlockchainIterator) (bs : List Block),
      chainBlocks c fuel iter = .ok bs → chainBlocks c bs.length iter = .ok bs
  | 0, _, _, h => by simp [chainBlocks] at h
  | fuel + 1, iter, bs, h => by
    simp only [chainBlocks] at h
    split at h
    · exact absurd h (by simp)
    · rename_i block iter' hnext
      split at h
      · rename_i hp
        injection h with h
        subst h
        simp [chainBlocks, hnext, hp]
      · rename_i hp
        split at h
        · exact absurd h (by simp)
        · rename_i rest hrest
          injection h with h
          subst h
          have := chainBlocks_exact c fuel iter' rest hrest
          simp [chainBlocks, hnext, hp, this]

/-- Below the length of the chain the traversal runs out of fuel. -/
theorem chainBlocks_short (c : Codec) :
    ∀ (fuel fuel' : Nat) (iter : BlockchainIterator) (bs : List Block),
      chainBlocks c fuel iter = .ok bs → fuel' < bs.length →
      chainBlocks c fuel' iter = .error .timeout
  | 0, _, _, _, h, _ => by simp [chainBlocks] at h
  | _ + 1, 0, _, _, _, _ => by simp [chainBlocks]
  | fuel + 1, fuel' + 1, iter, bs, h, hlt => by
    simp only [chainBlocks] at h ⊢
    split at h
    · exact absurd h (by simp)
    · rename_i block iter' hnext
      split at h
      · injection h with h
        subst h
        simp at hlt
      · rename_i hp
        split at h
        · exact absurd h (by simp)
        · rename_i rest hrest
          injection h with h
          subst h
          have := chainBlocks_short c fuel fuel' iter' rest hrest
            (by simp only [List.length_cons] at hlt; omega)
          simp [hp, this]

/-! ## The loops as folds over the blocks of the chain -/

theorem scanTxs_cons (b : Block) (bs : List Block) :
    scanTxs (b :: bs) = b.Transactions ++ scanTxs bs := by
  simp [scanTxs, List.flatMap_cons]

theorem scanTxs_append (bs bs' : List Block) :
    scanTxs (bs ++ bs') = scanTxs bs ++ scanTxs bs' := by
  simp [scanTxs, List.flatMap_append]

/-- `FindUTXO` folds the body of its transaction loop over the scan of the chain, and fails
exactly as the traversal of the chain fails. -/
theorem FindUTXO_loop_eq (c : Codec) :
    ∀ (fuel : Nat) (iter : BlockchainIterator) (st : GoMap TxOutputs × GoMap (List Int)),
      FindUTXO.loop c fuel iter st =
        match chainBlocks c fuel iter with
        | .error e => .error e
        | .ok bs => .ok ((scanTxs bs).foldl (utxoTx c) st).1
  | 0, _, _ => by simp [FindUTXO.loop, chainBlocks]
  | fuel + 1, iter, st => by
    simp only [FindUTXO.loop, chainBlocks]
    cases hnext : iter.Next c with
    | error e => rfl
    | ok p =>
      obtain ⟨block, iter'⟩ := p
      simp only []
      by_cases hp : block.PrevHash.length = 0
      · simp [hp, scanTxs]
      · simp only [hp, if_false]
        rw [FindUTXO_loop_eq c fuel iter']
        cases chainBlocks c fuel iter' with
        | error e => rfl
        | ok rest => simp [scanTxs_cons, List.foldl_append]

theorem findTx_append (l l' : List Transaction) (ID : Bytes) :
    findTx (l ++ l') ID = (findTx l ID).or (findTx l' ID) := by
  simp [findTx, List.find?_append]

/-- On a well-formed chain `FindTransaction` returns the first transaction of the scan with
the given ID. -/
theorem FindTransaction_loop_eq (c : Codec) (ID : Bytes) :
    ∀ (fuel : Nat) (iter : BlockchainIterator) (bs : List Block),
      chainBlocks c fuel iter = .ok bs →
      FindTransaction.loop c ID fuel iter = .ok (findTx (scanTxs bs) ID)
  | 0, _, _, h => by simp [chainBlocks] at h
  | fuel + 1, iter, bs, h => by
    simp only [chainBlocks] at h
    simp only [FindTransaction.loop]
    split at h
    · exact absurd h (by simp)
    · rename_i block iter' hnext
      cases hfind : block.Transactions.find? (fun tx => decide (tx.ID = ID)) with
      | some tx =>
        simp only []
        split at h
        · injection h with h
          subst h
          simp [scanTxs, findTx, hfind]
        · split at h
          · exact absurd h (by simp)
          · injection h with h
            subst h
            simp [scanTxs_cons, findTx_append, findTx, hfind]
      | none =>
        simp only []
        split at h
        · rename_i hp
          injection h with h
          subst h
          simp [scanTxs, findTx, hfind, hp]
        · rename_i hp
          split at h
          · exact absurd h (by simp)
          · rename_i rest hrest
            injection h with h
            subst h
            rw [if_neg hp, FindTransaction_loop_eq c ID fuel iter' rest hrest]
            simp [scanTxs_cons, findTx_append, findTx, hfind]

theorem findTx_some {scan : List Transaction} {ID : Bytes} {tx : Transaction}
    (h : findTx scan ID = some tx) : tx ∈ scan ∧ tx.ID = ID := by
  have h1 := List.mem_of_find?_eq_some h
  have h2 := List.find?_some h
  exact ⟨h1, by simpa using h2⟩

theorem findTx_none {scan : List Transaction} {ID : Bytes} :
    findTx scan ID = none ↔ ∀ tx ∈ scan, tx.ID ≠ ID := by
  simp [findTx, List.find?_eq_none]

/-- On a well-formed chain the context loop of `VerifyTransaction` looks every input up in
the scan of the chain. -/
theorem prevTXsLoop_eq (c : Codec) (fuel : Nat) (bc : Blockchain) (bs : List Block)
    (h : chainBlocks c fuel bc.Iterator = .ok bs) :
    ∀ (inputs : List TxInput) (acc : GoMap Transaction),
      prevTXsLoop c fuel bc inputs acc = prevTXsIn (scanTxs bs) inputs acc
  | [], _ => rfl
  | inp :: rest, acc => by
    simp only [prevTXsLoop, prevTXsIn, Blockchain.FindTransaction,
      FindTransaction_loop_eq c inp.ID fuel bc.Iterator bs h]
    cases findTx (scanTxs bs) inp.ID with
    | none => rfl
    | some prevTX => exact prevTXsLoop_eq c fuel bc bs h rest _

theorem VerifyTransaction_eq (c : Codec) (fuel : Nat) (bc : Blockchain) (bs : List Block)
    (h : chainBlocks c fuel bc.Iterator = .ok bs) (tx : Transaction) :
    bc.VerifyTransaction c fuel tx = verifyIn c (scanTxs bs) tx := by
  simp only [Blockchain.VerifyTransaction, verifyIn, prevTXsLoop_eq c fuel bc bs h]

/-! ## The backward pass of `FindUTXO` -/

theorem isSpent_eq (spentTxs : GoMap (List Int)) (txID : String) (outIdx : Nat) :
    isSpent spentTxs txID outIdx = decide ((outIdx : Int) ∈ (spentTxs.get txID).getD []) := by
  unfold isSpent
  cases spentTxs.get txID with
  | none => simp
  | some idxs =>
    simp only [Option.getD_some]
    by_cases h : (outIdx : Int) ∈ idxs
    · simp only [h, decide_True, List.any_eq_true, beq_iff_eq]
      exact ⟨_, h, rfl⟩
    · simp only [h, decide_False]
      rw [Bool.eq_false_iff]
      intro hany
      simp only [List.any_eq_true, beq_iff_eq] at hany
      obtain ⟨x, hx, hxe⟩ := hany
      exact h (hxe ▸ hx)

theorem inputsLoop_getD (key : String) :
    ∀ (ins : List TxInput) (sp : GoMap (List Int)),
      ((inputsLoop ins sp).get key).getD [] =
        (sp.get key).getD [] ++
          (ins.filter fun inp => decide (hexEncodeToString inp.ID = key)).map fun inp => inp.Out
  | [], sp => by simp [inputsLoop]
  | inp :: rest, sp => by
    simp only [inputsLoop]
    rw [inputsLoop_getD key rest, GoMap.get_set]
    by_cases h : hexEncodeToString inp.ID = key
    · subst h
      simp [List.filter_cons]
    · simp [List.filter_cons, h]

theorem recorded_append (c : Codec) (pre : List Transaction) (tx : Transaction) (key : String) :
    recorded c (pre ++ [tx]) key = recorded c pre key ++
      (if c.IsCoinbase tx = false then
        (tx.Inputs.filter fun inp => decide (hexEncodeToString inp.ID = key)).map fun inp => inp.Out
       else []) := by
  simp only [recorded, List.filter_append, List.flatMap_append]
  cases h : c.IsCoinbase tx <;> simp [List.filter_cons, h, List.flatMap_cons]

/-- The spent map after one more transaction records the indices of `recorded`. -/
theorem utxoTx_spent (c : Codec) (st : GoMap TxOutputs × GoMap (List Int)) (tx : Transaction)
    (pre : List Transaction)
    (hst : ∀ key, (st.2.get key).getD [] = recorded c pre key) :
    ∀ key, ((utxoTx c st tx).2.get key).getD [] = recorded c (pre ++ [tx]) key := by
  intro key
  rw [recorded_append]
  unfold utxoTx
  cases h : c.IsCoinbase tx
  · simp only [if_true]
    rw [inputsLoop_getD, hst]
  · simp [hst]

theorem outputsLoop_get (spentTxs : GoMap (List Int)) (key : String) (sp : List Int)
    (hsp : (spentTxs.get key).getD [] = sp) (k : String) :
    ∀ (outs : List TxOutput) (n : Nat) (UTXO : GoMap TxOutputs),
      (outputsLoop spentTxs key n outs UTXO).get k =
        if k = key ∧ kept sp n outs ≠ [] then
          some ⟨((UTXO.get key).getD ⟨[]⟩).Outputs ++ kept sp n outs⟩
        else UTXO.get k
  | [], n, UTXO => by simp [outputsLoop, kept]
  | out :: rest, n, UTXO => by
    simp only [outputsLoop, kept, isSpent_eq, hsp, decide_eq_true_eq]
    by_cases hn : (n : Int) ∈ sp
    · simp only [hn, if_true]
      exact outputsLoop_get spentTxs key sp hsp k rest (n + 1) UTXO
    · simp only [hn, if_false]
      rw [outputsLoop_get spentTxs key sp hsp k rest (n + 1)]
      simp only [GoMap.get_set, if_true, Option.getD_some, List.append_assoc,
        List.singleton_append, ne_eq, reduceCtorEq, not_false_eq_true, and_true]
      by_cases hk : k = key
      · subst hk
        by_cases hr : kept sp (n + 1) rest = [] <;> simp [hr]
      · have hk' : ¬ key = k := fun h => hk h.symm
        simp [hk, hk']

/-- After the pass over `txs`, `pre` having been visited before, the list under a key is the
list before the pass followed by the outputs that `unspentFor` selects, and a key is added
only together with an output. -/
theorem utxoFold_get (c : Codec) (k : String) :
    ∀ (txs pre : List Transaction) (st : GoMap TxOutputs × GoMap (List Int)),
      (∀ key, (st.2.get key).getD [] = recorded c pre key) →
      (txs.foldl (utxoTx c) st).1.get k =
        if unspentFor c k pre txs = [] then st.1.get k
        else some ⟨((st.1.get k).getD ⟨[]⟩).Outputs ++ unspentFor c k pre txs⟩
  | [], pre, st, _ => by simp [unspentFor]
  | tx :: rest, pre, st, hst => by
    simp only [List.foldl_cons]
    rw [utxoFold_get c k rest (pre ++ [tx]) (utxoTx c st tx) (utxoTx_spent c st tx pre hst)]
    have h1 : (utxoTx c st tx).1 = outputsLoop st.2 (hexEncodeToString tx.ID) 0 tx.Outputs st.1 := by
      unfold utxoTx
      cases c.IsCoinbase tx <;> rfl
    rw [h1, outputsLoop_get st.2 (hexEncodeToString tx.ID) _ (hst _) k]
    simp only [unspentFor]
    by_cases hk : hexEncodeToString tx.ID = k
    · subst hk
      by_cases ha : kept (recorded c pre (hexEncodeToString tx.ID)) 0 tx.Outputs = []
      · simp [ha]
      · by_cases hb : unspentFor c (hexEncodeToString tx.ID) (pre ++ [tx]) rest = []
        · simp [ha, hb]
        · simp [ha, hb]
    · have hk' : ¬ k = hexEncodeToString tx.ID := fun h => hk h.symm
      simp [hk, hk']

/-- The map that `FindUTXO` returns on a well-formed chain, key by key. -/
theorem FindUTXO_get (c : Codec) (fuel : Nat) (chain : Blockchain) (bs : List Block)
    (h : chainBlocks c fuel chain.Iterator = .ok bs) :
    ∃ m, chain.FindUTXO c fuel = .ok m ∧
      ∀ k, m.get k =
        if unspentFor c k [] (scanTxs bs) = [] then none
        else some ⟨unspentFor c k [] (scanTxs bs)⟩ := by
  refine ⟨((scanTxs bs).foldl (utxoTx c) ([], [])).1, ?_, ?_⟩
  · simp [Blockchain.FindUTXO, FindUTXO_loop_eq, h]
  · intro k
    rw [utxoFold_get c k (scanTxs bs) [] ([], []) (by intro key; simp [GoMap.get, recorded])]
    simp [GoMap.get]

theorem mem_kept (sp : List Int) (o : TxOutput) :
    ∀ (outs : List TxOutput) (n : Nat),
      o ∈ kept sp n outs ↔ ∃ i, outs[i]? = some o ∧ ((n + i : Nat) : Int) ∉ sp
  | [], n => by simp [kept]
  | out :: rest, n => by
    simp only [kept]
    constructor
    · intro h
      by_cases hn : (n : Int) ∈ sp
      · rw [if_pos hn] at h
        obtain ⟨i, hi, hni⟩ := (mem_kept sp o rest (n + 1)).1 h
        exact ⟨i + 1, by simpa using hi, by rw [show n + (i + 1) = n + 1 + i by omega]; exact hni⟩
      · rw [if_neg hn] at h
        rcases List.mem_cons.1 h with rfl | h
        · exact ⟨0, by simp, by simpa using hn⟩
        · obtain ⟨i, hi, hni⟩ := (mem_kept sp o rest (n + 1)).1 h
          exact ⟨i + 1, by simpa using hi,
            by rw [show n + (i + 1) = n + 1 + i by omega]; exact hni⟩
    · rintro ⟨i, hi, hni⟩
      cases i with
      | zero =>
        simp only [List.getElem?_cons_zero, Option.some.injEq] at hi
        subst hi
        have hn : (n : Int) ∉ sp := by simpa using hni
        simp [hn]
      | succ j =>
        simp only [List.getElem?_cons_succ] at hi
        have hrec : o ∈ kept sp (n + 1) rest :=
          (mem_kept sp o rest (n + 1)).2
            ⟨j, hi, by rw [show n + 1 + j = n + (j + 1) by omega]; exact hni⟩
        by_cases hn : (n : Int) ∈ sp
        · simpa [hn] using hrec
        · simp [hn, hrec]

theorem mem_recorded (c : Codec) (pre : List Transaction) (key : String) (j : Int) :
    j ∈ recorded c pre key ↔
      ∃ s ∈ pre, c.IsCoinbase s = false ∧
        ∃ inp ∈ s.Inputs, hexEncodeToString inp.ID = key ∧ inp.Out = j := by
  simp only [recorded, List.mem_flatMap, List.mem_filter, List.mem_map, Bool.not_eq_true',
    decide_eq_true_eq]
  constructor
  · rintro ⟨s, ⟨hs, hcb⟩, inp, ⟨hinp, hk⟩, hout⟩
    exact ⟨s, hs, hcb, inp, hinp, hk, hout⟩
  · rintro ⟨s, hs, hcb, inp, hinp, hk, hout⟩
    exact ⟨s, ⟨hs, hcb⟩, inp, ⟨hinp, hk⟩, hout⟩

theorem mem_unspentFor (c : Codec) (key : String) (o : TxOutput) :
    ∀ (txs pre : List Transaction),
      o ∈ unspentFor c key pre txs ↔
        ∃ p tx post, ∃ i : Nat, txs = p ++ tx :: post ∧ hexEncodeToString tx.ID = key ∧
          tx.Outputs[i]? = some o ∧ (i : Int) ∉ recorded c (pre ++ p) key
  | [], pre => by simp [unspentFor]
  | t :: rest, pre => by
    simp only [unspentFor, List.mem_append]
    constructor
    · rintro (h | h)
      · by_cases hk : hexEncodeToString t.ID = key
        · rw [if_pos hk] at h
          obtain ⟨i, hi, hni⟩ := (mem_kept _ o _ _).1 h
          exact ⟨[], t, rest, i, rfl, hk, hi, by simpa using hni⟩
        · simp [hk] at h
      · obtain ⟨p, tx, post, i, hsplit, hk, hi, hni⟩ := (mem_unspentFor c key o rest _).1 h
        refine ⟨t :: p, tx, post, i, by simp [hsplit], hk, hi, ?_⟩
        simpa [List.append_assoc] using hni
    · rintro ⟨p, tx, post, i, hsplit, hk, hi, hni⟩
      cases p with
      | nil =>
        simp only [List.nil_append, List.cons.injEq] at hsplit
        obtain ⟨rfl, rfl⟩ := hsplit
        left
        rw [if_pos hk]
        exact (mem_kept _ o _ _).2 ⟨i, hi, by simpa using hni⟩
      | cons q p' =>
        simp only [List.cons_append, List.cons.injEq] at hsplit
        obtain ⟨rfl, hrest⟩ := hsplit
        right
        exact (mem_unspentFor c key o rest _).2
          ⟨p', tx, post, i, hrest, hk, hi, by simpa [List.append_assoc] using hni⟩

/-! ## The ledgers that the operations build -/

theorem InitBlockchain_ok (c : Codec) (address : String) (chain : Blockchain)
    (h : InitBlockchain c false address = .ok chain) :
    chain = ⟨(c.Genesis (c.CoinbaseTx address genesisData)).Hash,
      (Store.empty.set (c.Genesis (c.CoinbaseTx address genesisData)).Hash
        (c.Serialize (c.Genesis (c.CoinbaseTx address genesisData)))).set lhKey
        (c.Genesis (c.CoinbaseTx address genesisData)).Hash⟩ := by
  simp only [InitBlockchain, Bool.false_eq_true, if_false, Except.ok.injEq] at h
  exact h.symm

theorem ContinueBlockChain_ok (c : Codec) (db : Store) (address : String) (chain : Blockchain)
    (h : ContinueBlockChain c true db address = .ok chain) :
    ∃ val, db lhKey = some val ∧ chain = ⟨val, db⟩ := by
  simp only [ContinueBlockChain, Bool.true_eq_false, if_false] at h
  split at h
  · exact absurd h (by simp)
  · rename_i val hval
    injection h with h
    exact ⟨val, hval, h.symm⟩

theorem AddBlock_ok (c : Codec) (fuel : Nat) (chain chain' : Blockchain)
    (txs : List Transaction) (b : Block)
    (h : chain.AddBlock c fuel txs = (.ok b, chain')) :
    AddBlock.verifyLoop c fuel chain txs = .ok () ∧
    ∃ lastHash, chain.Database lhKey = some lastHash ∧ b = c.CreateBlock txs lastHash ∧
      chain' = ⟨b.Hash, (chain.Database.set b.Hash (c.Serialize b)).set lhKey b.Hash⟩ := by
  unfold Blockchain.AddBlock at h
  split at h
  · simp at h
  · rename_i hv
    refine ⟨hv, ?_⟩
    split at h
    · simp at h
    · rename_i lastHash hl
      simp only [Prod.mk.injEq, Except.ok.injEq] at h
      obtain ⟨hb, hc⟩ := h
      subst hb
      exact ⟨lastHash, hl, rfl, hc.symm⟩

theorem AddBlock_of_verified (c : Codec) (fuel : Nat) (chain : Blockchain)
    (txs : List Transaction) (lastHash : Bytes)
    (hv : AddBlock.verifyLoop c fuel chain txs = .ok ())
    (hl : chain.Database lhKey = some lastHash) :
    chain.AddBlock c fuel txs =
      (.ok (c.CreateBlock txs lastHash),
        ⟨(c.CreateBlock txs lastHash).Hash,
          (chain.Database.set (c.CreateBlock txs lastHash).Hash
            (c.Serialize (c.CreateBlock txs lastHash))).set lhKey
            (c.CreateBlock txs lastHash).Hash⟩) := by
  unfold Blockchain.AddBlock
  rw [hv]
  simp only [hl]

theorem verifyLoop_ok (c : Codec) (fuel : Nat) (chain : Blockchain) :
    ∀ txs : List Transaction,
      AddBlock.verifyLoop c fuel chain txs = .ok () ↔
        ∀ tx ∈ txs, chain.VerifyTransaction c fuel tx = .ok true
  | [] => by simp [AddBlock.verifyLoop]
  | tx :: rest => by
    simp only [AddBlock.verifyLoop, List.mem_cons, forall_eq_or_imp]
    cases hv : chain.VerifyTransaction c fuel tx with
    | error e => simp
    | ok r =>
      cases r with
      | false => simp
      | true => simpa using verifyLoop_ok c fuel chain rest

theorem linked_prev (bs : List Block) (hl : linked bs) :
    ∀ b ∈ bs, b.PrevHash = [] ∨ ∃ b' ∈ bs.tail, b'.Hash = b.PrevHash := by
  induction bs with
  | nil => intro b hb; simp at hb
  | cons x rest ih =>
    cases rest with
    | nil =>
      intro b hb
      simp only [List.mem_singleton] at hb
      subst hb
      exact Or.inl hl
    | cons y rest' =>
      obtain ⟨hxy, hl'⟩ := hl
      intro b hb
      rcases List.mem_cons.1 hb with rfl | hb
      · exact Or.inr ⟨y, by simp, hxy.symm⟩
      · rcases ih hl' b hb with h | ⟨b', hb', hh⟩
        · exact Or.inl h
        · exact Or.inr ⟨b', List.mem_cons_of_mem _ hb', hh⟩

/-- Following the links of a stored, linked list of blocks returns that list. -/
theorem chainBlocks_of_linked (c : Codec) (hc : c.Lawful) (db : Store) :
    ∀ (rest : List Block) (b : Block), linked (b :: rest) →
      (∀ x ∈ b :: rest, db x.Hash = some (c.Serialize x)) →
      (∀ x ∈ b :: rest, x.Hash ≠ []) →
      chainBlocks c (rest.length + 1) ⟨b.Hash, db⟩ = .ok (b :: rest)
  | [], b, hl, hs, _ => by
    have hnext := Next_of_stored c hc ⟨b.Hash, db⟩ b (hs b (by simp))
    have hp : b.PrevHash = [] := hl
    simp [chainBlocks, hnext, hp]
  | b' :: rest, b, hl, hs, hne => by
    have hnext := Next_of_stored c hc ⟨b.Hash, db⟩ b (hs b (by simp))
    obtain ⟨hp, hl'⟩ := hl
    have hlen : b.PrevHash.length ≠ 0 := by
      rw [hp]
      exact fun h => hne b' (by simp) (List.length_eq_zero.1 h)
    have ih := chainBlocks_of_linked c hc db rest b' hl'
      (fun x hx => hs x (List.mem_cons_of_mem _ hx))
      (fun x hx => hne x (List.mem_cons_of_mem _ hx))
    rw [List.length_cons, chainBlocks]
    simp only [hnext, hlen, if_false]
    rw [hp, ih]

/-- The invariant holds of every ledger that the operations build. -/
theorem Reached.inv {c : Codec} (hc : c.Lawful) {address : String} {bs : List Block}
    {chain : Blockchain} (h : Reached c address bs chain) : Inv c bs chain := by
  induction h with
  | init hinit =>
    rw [InitBlockchain_ok c address _ hinit]
    have hp : Produced c (c.Genesis (c.CoinbaseTx address genesisData)) := Or.inl ⟨_, rfl⟩
    refine ⟨by dsimp only; exact Store.set_same _ _ _, rfl, ?_, ?_, by simp, hc.genesis_prevHash _⟩
    · intro b hb
      simp only [List.mem_singleton] at hb
      subst hb
      dsimp only
      rw [Store.set_ne _ _ _ _ (hc.hash_ne_lh _ hp), Store.set_same]
    · intro b hb
      simp only [List.mem_singleton] at hb
      subst hb
      exact hp
  | @add bs chain chain' fuel txs b _ hadd ih =>
    obtain ⟨_, lastHash, hl, hb, hchain⟩ := AddBlock_ok c fuel chain chain' txs b hadd
    have hp : Produced c b := Or.inr ⟨txs, lastHash, hb⟩
    have hlast : lastHash = chain.LastHash := by
      have := ih.lh
      rw [hl] at this
      exact Option.some.inj this
    have hprev : b.PrevHash = chain.LastHash := by rw [hb, hc.create_prevHash, hlast]
    obtain ⟨t, rest, rfl⟩ : ∃ t rest, bs = t :: rest := by
      cases bs with
      | nil => exact absurd ih.link (by simp [linked])
      | cons t rest => exact ⟨t, rest, rfl⟩
    have htip : t.Hash = chain.LastHash := by simpa using ih.tip
    have hfresh : ∀ x ∈ t :: rest, x.Hash ≠ b.Hash := by
      intro x hx hxb
      have hxeq : x = b := hc.hash_unique x b (ih.produced x hx) hp hxb
      rcases linked_prev _ ih.link x hx with h0 | ⟨y, hy, hyx⟩
      · rw [hxeq, hprev, ← htip] at h0
        exact hc.hash_ne_nil t (ih.produced t (by simp)) h0
      · rw [hxeq, hprev, ← htip] at hyx
        have hnd := ih.nodup
        simp only [List.map_cons, List.nodup_cons, List.mem_map, not_exists, not_and] at hnd
        exact hnd.1 y (by simpa using hy) hyx
    subst hchain
    refine ⟨by dsimp only; exact Store.set_same _ _ _, rfl, ?_, ?_, ?_, ⟨by rw [hprev, htip], ih.link⟩⟩
    · intro x hx
      dsimp only
      rw [Store.set_ne _ _ _ _ (by
        rcases List.mem_cons.1 hx with rfl | hx
        · exact hc.hash_ne_lh _ hp
        · exact hc.hash_ne_lh _ (ih.produced x hx))]
      rcases List.mem_cons.1 hx with rfl | hx
      · exact Store.set_same _ _ _
      · rw [Store.set_ne _ _ _ _ (hfresh x hx)]
        exact ih.stored x hx
    · intro x hx
      rcases List.mem_cons.1 hx with rfl | hx
      · exact hp
      · exact ih.produced x hx
    · simp only [List.map_cons, List.nodup_cons, List.mem_cons, List.mem_map, not_or,
        not_exists, not_and]
      have hnd := ih.nodup
      simp only [List.map_cons, List.nodup_cons, List.mem_map, not_exists, not_and] at hnd
      refine ⟨⟨fun h => hfresh t (by simp) h.symm, ?_⟩, hnd⟩
      intro x hx hxb
      exact hfresh x (List.mem_cons_of_mem _ hx) hxb
  | @resume bs chain chain' address' _ hres ih =>
    obtain ⟨val, hval, rfl⟩ := ContinueBlockChain_ok c chain.Database address' chain' hres
    have hv : val = chain.LastHash := by
      have := ih.lh
      rw [hval] at this
      exact Option.some.inj this
    subst hv
    exact ⟨hval, ih.tip, ih.stored, ih.produced, ih.nodup, ih.link⟩

/-- The chain of a ledger that the operations build is the list of the appended blocks. -/
theorem Reached.chainBlocks {c : Codec} (hc : c.Lawful) {address : String} {bs : List Block}
    {chain : Blockchain} (h : Reached c address bs chain) :
    chainBlocks c bs.length chain.Iterator = .ok bs := by
  have hinv := h.inv hc
  cases bs with
  | nil => exact absurd hinv.link (by simp [linked])
  | cons b rest =>
    have htip : b.Hash = chain.LastHash := by simpa using hinv.tip
    have := chainBlocks_of_linked c hc chain.Database rest b hinv.link hinv.stored
      (fun x hx => hc.hash_ne_nil x (hinv.produced x hx))
    rw [htip] at this
    exact this

theorem Reached.getLast {c : Codec} {address : String} {bs : List Block}
    {chain : Blockchain} (h : Reached c address bs chain) :
    bs.getLast? = some (c.Genesis (c.CoinbaseTx address genesisData)) := by
  induction h with
  | init _ => rfl
  | @add bs chain chain' fuel txs b _ _ ih =>
    cases bs with
    | nil => simp at ih
    | cons t rest => rw [List.getLast?_cons_cons]; exact ih
  | resume _ _ ih => exact ih

/-! ## Claims -/

/-- C1 (amended): on every well-formed chain, an output is in the list that `FindUTXO`
returns under the hex encoding of an ID exactly when some transaction of the chain with
that ID has it at an index that no input of a non-coinbase transaction visited earlier in
the scan (in a block nearer the tip, or earlier in the same block) references. -/
theorem FindUTXO_output_iff (c : Codec) (fuel : Nat) (chain : Blockchain) (bs : List Block)
    (hwf : chainBlocks c fuel chain.Iterator = .ok bs) :
    ∃ m, chain.FindUTXO c fuel = .ok m ∧
      ∀ (ID : Bytes) (o : TxOutput),
        o ∈ ((m.get (hexEncodeToString ID)).getD ⟨[]⟩).Outputs ↔
          ∃ pre tx post, ∃ i : Nat, scanTxs bs = pre ++ tx :: post ∧ tx.ID = ID ∧
            tx.Outputs[i]? = some o ∧
            ¬ ∃ s ∈ pre, c.IsCoinbase s = false ∧
              ∃ inp ∈ s.Inputs, inp.ID = ID ∧ inp.Out = (i : Int) := by
  obtain ⟨m, hm, hget⟩ := FindUTXO_get c fuel chain bs hwf
  refine ⟨m, hm, ?_⟩
  intro ID o
  have hmem : o ∈ ((m.get (hexEncodeToString ID)).getD ⟨[]⟩).Outputs ↔
      o ∈ unspentFor c (hexEncodeToString ID) [] (scanTxs bs) := by
    rw [hget]
    by_cases he : unspentFor c (hexEncodeToString ID) [] (scanTxs bs) = []
    · simp [he]
    · simp [he]
  rw [hmem, mem_unspentFor]
  constructor
  · rintro ⟨p, tx, post, i, hsplit, hk, hi, hni⟩
    refine ⟨p, tx, post, i, hsplit, hexEncodeToString_injective _ _ hk, hi, ?_⟩
    rintro ⟨s, hs, hcb, inp, hinp, hid, hout⟩
    exact hni ((mem_recorded c _ _ _).2 ⟨s, by simpa using hs, hcb, inp, hinp, by rw [hid], hout⟩)
  · rintro ⟨p, tx, post, i, hsplit, hk, hi, hni⟩
    refine ⟨p, tx, post, i, hsplit, by rw [hk], hi, ?_⟩
    intro hrec
    obtain ⟨s, hs, hcb, inp, hinp, hid, hout⟩ := (mem_recorded c _ _ _).1 hrec
    exact hni ⟨s, by simpa using hs, hcb, inp, hinp, hexEncodeToString_injective _ _ hid, hout⟩

theorem exBlock_produced : Produced toyCodec exBlock :=
  Or.inr ⟨[exFund, exSpend], [], rfl⟩

theorem exChain_stored : exChain.Database exHash = some (toyCodec.Serialize exBlock) := by
  have hne : exHash ≠ lhKey := toyCodec_lawful.hash_ne_lh exBlock exBlock_produced
  show ((Store.empty.set exHash (toyCodec.Serialize exBlock)).set lhKey exHash) exHash = _
  rw [Store.set_ne _ _ _ _ hne, Store.set_same]

theorem exChain_blocks : chainBlocks toyCodec 1 exChain.Iterator = .ok [exBlock] := by
  have hnext : exChain.Iterator.Next toyCodec = .ok (exBlock, ⟨[], exChain.Database⟩) :=
    Next_of_stored toyCodec toyCodec_lawful exChain.Iterator exBlock exChain_stored
  simp only [chainBlocks, hnext]
  rfl

theorem exChain_FindUTXO : exChain.FindUTXO toyCodec 1 = .ok exUTXO := by
  simp only [Blockchain.FindUTXO, FindUTXO_loop_eq, exChain_blocks]
  rfl

/-- Witness for `FindUTXO_output_iff`. -/
theorem FindUTXO_output_iff_witness :
    ∃ m, exChain.FindUTXO toyCodec 1 = .ok m ∧
      ∀ (ID : Bytes) (o : TxOutput),
        o ∈ ((m.get (hexEncodeToString ID)).getD ⟨[]⟩).Outputs ↔
          ∃ pre tx post, ∃ i : Nat, scanTxs [exBlock] = pre ++ tx :: post ∧ tx.ID = ID ∧
            tx.Outputs[i]? = some o ∧
            ¬ ∃ s ∈ pre, toyCodec.IsCoinbase s = false ∧
              ∃ inp ∈ s.Inputs, inp.ID = ID ∧ inp.Out = (i : Int) :=
  FindUTXO_output_iff toyCodec 1 exChain [exBlock] exChain_blocks

/-- C1 as stated fails: the chain of `exChain` is well formed, the output of `exFund` is in
the list that `FindUTXO` returns under the hex encoding of its ID, and yet the input of
`exSpend`, a transaction of the chain, references it. -/
theorem FindUTXO_output_iff_counterexample :
    chainBlocks toyCodec 1 exChain.Iterator = .ok [exBlock] ∧
    exChain.FindUTXO toyCodec 1 = .ok exUTXO ∧
    exFund ∈ scanTxs [exBlock] ∧ exFund.Outputs[0]? = some ⟨5, [65]⟩ ∧
    ¬ ((⟨5, [65]⟩ : TxOutput) ∈ ((exUTXO.get (hexEncodeToString exFund.ID)).getD ⟨[]⟩).Outputs ↔
        ¬ ∃ s ∈ scanTxs [exBlock], ∃ inp ∈ s.Inputs, inp.ID = exFund.ID ∧ inp.Out = 0) := by
  refine ⟨exChain_blocks, exChain_FindUTXO, by decide, by decide, ?_⟩
  intro h
  have h1 : (⟨5, [65]⟩ : TxOutput) ∈
      ((exUTXO.get (hexEncodeToString exFund.ID)).getD ⟨[]⟩).Outputs := by decide
  exact h.1 h1 ⟨exSpend, by decide, ⟨[1], 0, [65]⟩, by decide, by decide, by decide⟩

/-! ## The example ledgers -/

set_option maxRecDepth 1000000

theorem exLedger0_init : InitBlockchain toyCodec false "A" = .ok exLedger0 := rfl

theorem exLedger0_reached : Reached toyCodec "A" [exGenesis] exLedger0 :=
  Reached.init exLedger0_init

theorem exLedger1_add :
    exLedger0.AddBlock toyCodec 1 [exPay] = (.ok exBlock1, exLedger1) := by rfl

theorem exLedger1_reached : Reached toyCodec "A" [exBlock1, exGenesis] exLedger1 :=
  Reached.add exLedger0_reached exLedger1_add

theorem exLedger2_add :
    exLedger1.AddBlock toyCodec 1 [exCoinbase] = (.ok exBlock2, exLedger2) := by rfl

theorem exLedger2_reached :
    Reached toyCodec "A" [exBlock2, exBlock1, exGenesis] exLedger2 :=
  Reached.add exLedger1_reached exLedger2_add

/-! ## C3 -/

theorem outputsLoop_fresh (key : String) :
    ∀ (outs : List TxOutput) (n : Nat) (acc : List TxOutput),
      outputsLoop [] key n outs [(key, ⟨acc⟩)] = [(key, ⟨acc ++ outs⟩)]
  | [], _, _ => by simp [outputsLoop]
  | out :: rest, n, acc => by
    simp only [outputsLoop, isSpent, GoMap.get, if_true, Option.getD_some, GoMap.set,
      Bool.false_eq_true, if_false]
    rw [outputsLoop_fresh key rest (n + 1) (acc ++ [out])]
    simp

theorem outputsLoop_empty (key : String) (outs : List TxOutput) (h : outs ≠ []) :
    outputsLoop [] key 0 outs [] = [(key, ⟨outs⟩)] := by
  cases outs with
  | nil => exact absurd rfl h
  | cons out rest =>
    simp only [outputsLoop, isSpent, GoMap.get, Option.getD_none, GoMap.set,
      Bool.false_eq_true, if_false, List.nil_append]
    rw [outputsLoop_fresh key rest 1 [out]]
    simp

/-- C3: on a fresh directory `InitBlockchain(address)` returns a ledger, and `FindUTXO` on
it returns the map with the single entry that has the hex encoding of the genesis coinbase
transaction's ID as key and the complete output list of that transaction as value. -/
theorem FindUTXO_InitBlockchain (c : Codec) (hc : c.Lawful) (address : String)
    (hout : (c.CoinbaseTx address genesisData).Outputs ≠ []) :
    ∃ chain, InitBlockchain c false address = .ok chain ∧
      ∀ fuel, 0 < fuel →
        chain.FindUTXO c fuel =
          .ok [(hexEncodeToString (c.CoinbaseTx address genesisData).ID,
            ⟨(c.CoinbaseTx address genesisData).Outputs⟩)] := by
  refine ⟨_, rfl, ?_⟩
  intro fuel hfuel
  have hr : Reached c address [c.Genesis (c.CoinbaseTx address genesisData)] _ :=
    @Reached.init c address _ rfl
  have hb := chainBlocks_mono c _ fuel _ _ (hr.chainBlocks hc) (by simpa using hfuel)
  simp only [Blockchain.FindUTXO, FindUTXO_loop_eq, hb, scanTxs, List.flatMap_cons,
    List.flatMap_nil, List.append_nil, hc.genesis_transactions, List.foldl_cons, List.foldl_nil]
  have h1 : (utxoTx c ([], []) (c.CoinbaseTx address genesisData)).1 =
      outputsLoop [] (hexEncodeToString (c.CoinbaseTx address genesisData).ID) 0
        (c.CoinbaseTx address genesisData).Outputs [] := by
    unfold utxoTx
    cases c.IsCoinbase (c.CoinbaseTx address genesisData) <;> rfl
  rw [h1, outputsLoop_empty _ _ hout]

/-- Witness for `FindUTXO_InitBlockchain`. -/
theorem FindUTXO_InitBlockchain_witness :
    ∃ chain, InitBlockchain toyCodec false "A" = .ok chain ∧
      ∀ fuel, 0 < fuel →
        chain.FindUTXO toyCodec fuel =
          .ok [(hexEncodeToString (toyCodec.CoinbaseTx "A" genesisData).ID,
            ⟨(toyCodec.CoinbaseTx "A" genesisData).Outputs⟩)] :=
  FindUTXO_InitBlockchain toyCodec toyCodec_lawful "A" (by decide)

/-! ## C5 -/

theorem verifyLoop_error (c : Codec) (fuel : Nat) (chain : Blockchain) :
    ∀ txs : List Transaction,
      (∃ tx ∈ txs, chain.VerifyTransaction c fuel tx ≠ .ok true) →
      ∃ e, AddBlock.verifyLoop c fuel chain txs = .error e ∧
        ((∀ tx ∈ txs, ∀ e', chain.VerifyTransaction c fuel tx = .error e' → e' = .panic) →
          e = .panic)
  | [], h => by
    obtain ⟨tx, htx, _⟩ := h
    simp at htx
  | tx :: rest, h => by
    simp only [AddBlock.verifyLoop]
    cases hv : chain.VerifyTransaction c fuel tx with
    | error e => exact ⟨e, rfl, fun hp => hp tx (by simp) e hv⟩
    | ok r =>
      cases r with
      | false => exact ⟨.panic, rfl, fun _ => rfl⟩
      | true =>
        obtain ⟨tx', htx', hne⟩ := h
        rcases List.mem_cons.1 htx' with rfl | hmem
        · exact absurd hv hne
        · obtain ⟨e, he, hp⟩ := verifyLoop_error c fuel chain rest ⟨tx', hmem, hne⟩
          exact ⟨e, he, fun hall => hp fun t ht => hall t (List.mem_cons_of_mem _ ht)⟩

/-- C5: when some transaction of the list does not verify, `AddBlock` returns no block and
leaves the ledger as it was, tip hash and every key of the store included; the failure is
a panic unless a verification itself ran out of fuel or left the goroutine. -/
theorem AddBlock_rejects (c : Codec) (fuel : Nat) (chain : Blockchain)
    (txs : List Transaction)
    (h : ∃ tx ∈ txs, chain.VerifyTransaction c fuel tx ≠ .ok true) :
    (chain.AddBlock c fuel txs).2 = chain ∧
    ∃ e, (chain.AddBlock c fuel txs).1 = .error e ∧
      ((∀ tx ∈ txs, ∀ e', chain.VerifyTransaction c fuel tx = .error e' → e' = .panic) →
        e = .panic) := by
  obtain ⟨e, he, hp⟩ := verifyLoop_error c fuel chain txs h
  unfold Blockchain.AddBlock
  rw [he]
  exact ⟨rfl, e, rfl, hp⟩

/-- Witness for `AddBlock_rejects`: a block with a transaction whose input is not in the
chain is refused by the ledger `exLedger1`. -/
theorem AddBlock_rejects_witness :
    (exLedger1.AddBlock toyCodec 2 [exCoinbase, exOrphan]).2 = exLedger1 ∧
    ∃ e, (exLedger1.AddBlock toyCodec 2 [exCoinbase, exOrphan]).1 = .error e ∧
      ((∀ tx ∈ [exCoinbase, exOrphan], ∀ e',
          exLedger1.VerifyTransaction toyCodec 2 tx = .error e' → e' = .panic) →
        e = .panic) :=
  AddBlock_rejects toyCodec 2 exLedger1 [exCoinbase, exOrphan]
    ⟨exOrphan, by simp, by decide⟩

/-! ## C6 -/

theorem Reached.lastHash {c : Codec} {address : String} {bs : List Block}
    {chain : Blockchain} (h : Reached c address bs chain) :
    chain.Database lhKey = some chain.LastHash ∧
      bs.head?.map (fun b => b.Hash) = some chain.LastHash := by
  induction h with
  | init hinit =>
    rw [InitBlockchain_ok c address _ hinit]
    exact ⟨by dsimp only; exact Store.set_same _ _ _, rfl⟩
  | @add bs chain chain' fuel txs b _ hadd _ =>
    obtain ⟨_, lastHash, _, _, hchain⟩ := AddBlock_ok c fuel chain chain' txs b hadd
    subst hchain
    exact ⟨by dsimp only; exact Store.set_same _ _ _, rfl⟩
  | @resume bs chain chain' address' _ hres ih =>
    obtain ⟨val, hval, rfl⟩ := ContinueBlockChain_ok c chain.Database address' chain' hres
    have hv : val = chain.LastHash := by
      have := ih.1
      rw [hval] at this
      exact Option.some.inj this
    subst hv
    exact ⟨hval, ih.2⟩

/-- C6: after a successful `InitBlockchain` the cached `LastHash` is the value stored
under the key `"lh"` and is the hash of the genesis block; after a successful
`ContinueBlockChain` it is the value stored under `"lh"`; after a successful `AddBlock` it
is the value stored under `"lh"` and is the hash of the block just appended; and in every
ledger that these operations build, both are the hash of the most recently appended block
(the head of the list of appended blocks, the genesis block when nothing was appended). -/
theorem lastHash_eq_lh (c : Codec) (address : String) :
    (∀ (dbExists : Bool) (chain : Blockchain),
      InitBlockchain c dbExists address = .ok chain →
      chain.Database lhKey = some chain.LastHash ∧
        chain.LastHash = (c.Genesis (c.CoinbaseTx address genesisData)).Hash) ∧
    (∀ (dbExists : Bool) (db : Store) (chain : Blockchain),
      ContinueBlockChain c dbExists db address = .ok chain →
      chain.Database lhKey = some chain.LastHash) ∧
    (∀ (fuel : Nat) (chain chain' : Blockchain) (txs : List Transaction) (b : Block),
      chain.AddBlock c fuel txs = (.ok b, chain') →
      chain'.Database lhKey = some chain'.LastHash ∧ chain'.LastHash = b.Hash) ∧
    (∀ (bs : List Block) (chain : Blockchain), Reached c address bs chain →
      chain.Database lhKey = some chain.LastHash ∧
        bs.head?.map (fun b => b.Hash) = some chain.LastHash) := by
  refine ⟨?_, ?_, ?_, fun bs chain h => h.lastHash⟩
  · intro dbExists chain hinit
    cases dbExists with
    | true => simp [InitBlockchain] at hinit
    | false =>
      rw [InitBlockchain_ok c address _ hinit]
      exact ⟨by dsimp only; exact Store.set_same _ _ _, rfl⟩
  · intro dbExists db chain hres
    cases dbExists with
    | false => simp [ContinueBlockChain] at hres
    | true =>
      obtain ⟨val, hval, rfl⟩ := ContinueBlockChain_ok c db address chain hres
      exact hval
  · intro fuel chain chain' txs b hadd
    obtain ⟨_, lastHash, _, _, hchain⟩ := AddBlock_ok c fuel chain chain' txs b hadd
    subst hchain
    exact ⟨by dsimp only; exact Store.set_same _ _ _, rfl⟩

/-- Witness for `lastHash_eq_lh`: the ledger `exLedger0` of `InitBlockchain`, the same
ledger reopened by `ContinueBlockChain`, the ledger `exLedger1` after `AddBlock`, and the
ledger `exLedger2` after a second `AddBlock`. -/
theorem lastHash_eq_lh_witness :
    (exLedger0.Database lhKey = some exLedger0.LastHash ∧
      exLedger0.LastHash = (toyCodec.Genesis (toyCodec.CoinbaseTx "A" genesisData)).Hash) ∧
    (exLedger0.Database lhKey = some exLedger0.LastHash) ∧
    (exLedger1.Database lhKey = some exLedger1.LastHash ∧ exLedger1.LastHash = exBlock1.Hash) ∧
    (exLedger2.Database lhKey = some exLedger2.LastHash ∧
      [exBlock2, exBlock1, exGenesis].head?.map (fun b => b.Hash) = some exLedger2.LastHash) :=
  ⟨(lastHash_eq_lh toyCodec "A").1 false exLedger0 exLedger0_init,
    (lastHash_eq_lh toyCodec "A").2.1 true exLedger0.Database exLedger0 rfl,
    (lastHash_eq_lh toyCodec "A").2.2.1 1 exLedger0 exLedger1 [exPay] exBlock1 exLedger1_add,
    (lastHash_eq_lh toyCodec "A").2.2.2 [exBlock2, exBlock1, exGenesis] exLedger2
      exLedger2_reached⟩

/-! ## C7 -/

theorem linked_genesis_last :
    ∀ (bs : List Block), linked bs → (∀ b ∈ bs, b.Hash ≠ []) →
      ∀ (i : Nat) (hi : i < bs.length), (bs.get ⟨i, hi⟩).PrevHash = [] ↔ i + 1 = bs.length
  | [], hl, _, _, _ => absurd hl (by simp [linked])
  | [g], hl, _, i, hi => by
    have hi0 : i = 0 := by simpa using hi
    subst hi0
    have hg : g.PrevHash = [] := hl
    simp [hg]
  | b :: b' :: rest, hl, hne, i, hi => by
    obtain ⟨hp, hl'⟩ := hl
    cases i with
    | zero =>
      have hb : b.PrevHash ≠ [] := by
        rw [hp]
        exact hne b' (by simp)
      simp [hb]
    | succ j =>
      have hj : j < (b' :: rest).length := by simpa using hi
      have ih := linked_genesis_last (b' :: rest) hl'
        (fun x hx => hne x (List.mem_cons_of_mem _ hx)) j hj
      simp only [List.get_eq_getElem, List.getElem_cons_succ, List.length_cons] at ih ⊢
      rw [ih]
      omega

/-- C7: in a ledger built by `InitBlockchain` and successful `AddBlock` calls, with `bs` the
appended blocks (the genesis block and one block per call), following `PrevHash` from
`LastHash` returns exactly the blocks `bs` and reaches the block with empty `PrevHash`
after `bs.length` calls of `Next`, not fewer; every hash on the way is a key of the store;
and the last block of `bs` is the only one with empty `PrevHash`. -/
theorem Reached_chain (c : Codec) (hc : c.Lawful) (address : String) (bs : List Block)
    (chain : Blockchain) (h : Reached c address bs chain) :
    chainBlocks c bs.length chain.Iterator = .ok bs ∧
    (∀ fuel, fuel < bs.length → chainBlocks c fuel chain.Iterator = .error .timeout) ∧
    (∀ b ∈ bs, chain.Database b.Hash = some (c.Serialize b)) ∧
    (∀ (i : Nat) (hi : i < bs.length),
      (bs.get ⟨i, hi⟩).PrevHash = [] ↔ i + 1 = bs.length) ∧
    bs.getLast? = some (c.Genesis (c.CoinbaseTx address genesisData)) := by
  have hinv := h.inv hc
  refine ⟨h.chainBlocks hc, ?_, hinv.stored, ?_, ?_⟩
  · intro fuel hfuel
    exact chainBlocks_short c _ fuel _ _ (h.chainBlocks hc) hfuel
  · exact linked_genesis_last bs hinv.link (fun b hb => hc.hash_ne_nil b (hinv.produced b hb))
  · exact h.getLast

/-- Witness for `Reached_chain`, on the ledger after two `AddBlock` calls. -/
theorem Reached_chain_witness :
    chainBlocks toyCodec [exBlock2, exBlock1, exGenesis].length exLedger2.Iterator
      = .ok [exBlock2, exBlock1, exGenesis] ∧
    (∀ fuel, fuel < [exBlock2, exBlock1, exGenesis].length →
      chainBlocks toyCodec fuel exLedger2.Iterator = .error .timeout) ∧
    (∀ b ∈ [exBlock2, exBlock1, exGenesis],
      exLedger2.Database b.Hash = some (toyCodec.Serialize b)) ∧
    (∀ (i : Nat) (hi : i < [exBlock2, exBlock1, exGenesis].length),
      ([exBlock2, exBlock1, exGenesis].get ⟨i, hi⟩).PrevHash = [] ↔
        i + 1 = [exBlock2, exBlock1, exGenesis].length) ∧
    [exBlock2, exBlock1, exGenesis].getLast?
      = some (toyCodec.Genesis (toyCodec.CoinbaseTx "A" genesisData)) :=
  Reached_chain toyCodec toyCodec_lawful "A" [exBlock2, exBlock1, exGenesis] exLedger2
    exLedger2_reached

/-! ## C8 -/

/-- C8: when every transaction of the list verifies and `h` is the value stored under
`"lh"`, `AddBlock` returns the block `CreateBlock(transactions, h)`; afterwards `LastHash`
is the hash of that block, the store holds the serialised block under that hash and the
hash under `"lh"`, and every other key is as before. -/
theorem AddBlock_writes (c : Codec) (fuel : Nat) (chain : Blockchain)
    (txs : List Transaction) (h : Bytes)
    (hv : ∀ tx ∈ txs, chain.VerifyTransaction c fuel tx = .ok true)
    (hl : chain.Database lhKey = some h)
    (hne : (c.CreateBlock txs h).Hash ≠ lhKey) :
    (chain.AddBlock c fuel txs).1 = .ok (c.CreateBlock txs h) ∧
    (chain.AddBlock c fuel txs).2.LastHash = (c.CreateBlock txs h).Hash ∧
    (chain.AddBlock c fuel txs).2.Database (c.CreateBlock txs h).Hash
      = some (c.Serialize (c.CreateBlock txs h)) ∧
    (chain.AddBlock c fuel txs).2.Database lhKey = some (c.CreateBlock txs h).Hash ∧
    ∀ k, k ≠ (c.CreateBlock txs h).Hash → k ≠ lhKey →
      (chain.AddBlock c fuel txs).2.Database k = chain.Database k := by
  rw [AddBlock_of_verified c fuel chain txs h ((verifyLoop_ok c fuel chain txs).2 hv) hl]
  refine ⟨rfl, rfl, ?_, ?_, ?_⟩
  · dsimp only
    rw [Store.set_ne _ _ _ _ hne, Store.set_same]
  · dsimp only
    exact Store.set_same _ _ _
  · intro k hk1 hk2
    dsimp only
    rw [Store.set_ne _ _ _ _ hk2, Store.set_ne _ _ _ _ hk1]

/-- Witness for `AddBlock_writes`: appending `exPay` to `exLedger0`. -/
theorem AddBlock_writes_witness :
    (exLedger0.AddBlock toyCodec 1 [exPay]).1
      = .ok (toyCodec.CreateBlock [exPay] exGenesis.Hash) ∧
    (exLedger0.AddBlock toyCodec 1 [exPay]).2.LastHash
      = (toyCodec.CreateBlock [exPay] exGenesis.Hash).Hash ∧
    (exLedger0.AddBlock toyCodec 1 [exPay]).2.Database
        (toyCodec.CreateBlock [exPay] exGenesis.Hash).Hash
      = some (toyCodec.Serialize (toyCodec.CreateBlock [exPay] exGenesis.Hash)) ∧
    (exLedger0.AddBlock toyCodec 1 [exPay]).2.Database lhKey
      = some (toyCodec.CreateBlock [exPay] exGenesis.Hash).Hash ∧
    ∀ k, k ≠ (toyCodec.CreateBlock [exPay] exGenesis.Hash).Hash → k ≠ lhKey →
      (exLedger0.AddBlock toyCodec 1 [exPay]).2.Database k = exLedger0.Database k :=
  AddBlock_writes toyCodec 1 exLedger0 [exPay] exGenesis.Hash
    (by
      intro tx htx
      rw [List.mem_singleton.1 htx]
      decide)
    rfl
    (toyCodec_lawful.hash_ne_lh _ (Or.inr ⟨_, _, rfl⟩))

/-! ## C9 -/

theorem nextN_of_chainBlocks (c : Codec) :
    ∀ (fuel : Nat) (iter : BlockchainIterator) (bs : List Block),
      chainBlocks c fuel iter = .ok bs →
      nextN c bs.length iter = .ok (bs, ⟨[], iter.Database⟩)
  | 0, _, _, h => by simp [chainBlocks] at h
  | fuel + 1, iter, bs, h => by
    simp only [chainBlocks] at h
    split at h
    · exact absurd h (by simp)
    · rename_i block iter' hnext
      have hdb : iter'.Database = iter.Database ∧ iter'.CurrentHash = block.PrevHash := by
        unfold BlockchainIterator.Next at hnext
        split at hnext
        · exact absurd hnext (by simp)
        · split at hnext
          · exact absurd hnext (by simp)
          · simp only [Except.ok.injEq, Prod.mk.injEq] at hnext
            obtain ⟨h1, h2⟩ := hnext
            subst h1 h2
            exact ⟨rfl, rfl⟩
      split at h
      · rename_i hp
        injection h with h
        subst h
        have hcur : iter' = ⟨[], iter.Database⟩ := by
          cases iter' with
          | mk cur db =>
            simp only at hdb
            rw [hdb.1, hdb.2, List.length_eq_zero.1 hp]
        simp [nextN, hnext, hcur]
      · split at h
        · exact absurd h (by simp)
        · rename_i rest hrest
          injection h with h
          subst h
          have ih := nextN_of_chainBlocks c fuel iter' rest hrest
          simp [nextN, hnext, ih, hdb.1]

/-- C9: in a ledger built by `InitBlockchain` and successful `AddBlock` calls, with `bs` the
appended blocks, most recent first, `bs.length` calls of `Next` on the iterator that
`Iterator()` returns yield exactly the blocks `bs` in that order, ending with the genesis
block and with the iterator at the empty hash; no block occurs twice. -/
theorem Reached_iterate (c : Codec) (hc : c.Lawful) (address : String) (bs : List Block)
    (chain : Blockchain) (h : Reached c address bs chain) :
    nextN c bs.length chain.Iterator = .ok (bs, ⟨[], chain.Database⟩) ∧
    bs.Nodup ∧
    bs.getLast? = some (c.Genesis (c.CoinbaseTx address genesisData)) :=
  ⟨nextN_of_chainBlocks c _ _ _ (h.chainBlocks hc), List.Nodup.of_map _ (h.inv hc).nodup,
    h.getLast⟩

/-- Witness for `Reached_iterate`, on the ledger after two `AddBlock` calls. -/
theorem Reached_iterate_witness :
    nextN toyCodec [exBlock2, exBlock1, exGenesis].length exLedger2.Iterator
      = .ok ([exBlock2, exBlock1, exGenesis], ⟨[], exLedger2.Database⟩) ∧
    [exBlock2, exBlock1, exGenesis].Nodup ∧
    [exBlock2, exBlock1, exGenesis].getLast?
      = some (toyCodec.Genesis (toyCodec.CoinbaseTx "A" genesisData)) :=
  Reached_iterate toyCodec toyCodec_lawful "A" [exBlock2, exBlock1, exGenesis] exLedger2
    exLedger2_reached

/-! ## C10 -/

theorem FindTransaction_loop_id (c : Codec) (ID : Bytes) :
    ∀ (fuel : Nat) (iter : BlockchainIterator) (t : Transaction),
      FindTransaction.loop c ID fuel iter = .ok (some t) → t.ID = ID
  | 0, _, _, h => by simp [FindTransaction.loop] at h
  | fuel + 1, iter, t, h => by
    simp only [FindTransaction.loop] at h
    split at h
    · exact absurd h (by simp)
    · rename_i block iter' _
      split at h
      · rename_i tx hfind
        simp only [Except.ok.injEq, Option.some.injEq] at h
        subst h
        simpa using List.find?_some hfind
      · split at h
        · simp at h
        · exact FindTransaction_loop_id c ID fuel iter' t h

/-- The context built from the inputs `inputs`, starting from the context `acc`. -/
theorem prevTXsLoop_spec (c : Codec) (fuel : Nat) (bc : Blockchain) :
    ∀ (inputs : List TxInput) (acc : GoMap Transaction),
      (∀ inp ∈ inputs, ∃ t, bc.FindTransaction c fuel inp.ID = .ok (some t)) →
      ∃ ctx, prevTXsLoop c fuel bc inputs acc = .ok ctx ∧
        ∀ k t, ctx.get k = some t ↔
          (∃ inp ∈ inputs, k = hexEncodeToString inp.ID ∧
            bc.FindTransaction c fuel inp.ID = .ok (some t)) ∨
          ((∀ inp ∈ inputs, k ≠ hexEncodeToString inp.ID) ∧ acc.get k = some t)
  | [], acc, _ => ⟨acc, rfl, by simp⟩
  | inp :: rest, acc, hall => by
    obtain ⟨p, hp⟩ := hall inp (by simp)
    have hpid : p.ID = inp.ID := FindTransaction_loop_id c inp.ID fuel _ p hp
    obtain ⟨ctx, hctx, hget⟩ := prevTXsLoop_spec c fuel bc rest
      (acc.set (hexEncodeToString p.ID) p) (fun i hi => hall i (List.mem_cons_of_mem _ hi))
    refine ⟨ctx, by simp only [prevTXsLoop, hp, hctx], ?_⟩
    intro k t
    rw [hget, GoMap.get_set, hpid]
    constructor
    · rintro (⟨i, hi, hk, hf⟩ | ⟨hnot, hacc⟩)
      · exact Or.inl ⟨i, List.mem_cons_of_mem _ hi, hk, hf⟩
      · by_cases hk : hexEncodeToString inp.ID = k
        · rw [if_pos hk] at hacc
          have hpt : p = t := Option.some.inj hacc
          exact Or.inl ⟨inp, by simp, hk.symm, by rw [← hpt]; exact hp⟩
        · rw [if_neg hk] at hacc
          refine Or.inr ⟨?_, hacc⟩
          intro i hi
          rcases List.mem_cons.1 hi with rfl | hi
          · exact fun h => hk h.symm
          · exact hnot i hi
    · rintro (⟨i, hi, hk, hf⟩ | ⟨hnot, hacc⟩)
      · rcases List.mem_cons.1 hi with rfl | hi
        · by_cases hex : ∃ j ∈ rest, k = hexEncodeToString j.ID
          · obtain ⟨j, hj, hkj⟩ := hex
            have hji : j.ID = i.ID := hexEncodeToString_injective _ _ (hkj ▸ hk)
            exact Or.inl ⟨j, hj, hkj, by rw [hji]; exact hf⟩
          · refine Or.inr ⟨fun j hj hkj => hex ⟨j, hj, hkj⟩, ?_⟩
            rw [if_pos hk.symm]
            rw [hp] at hf
            simpa using hf
        · exact Or.inl ⟨i, hi, hk, hf⟩
      · refine Or.inr ⟨fun i hi => hnot i (List.mem_cons_of_mem _ hi), ?_⟩
        rw [if_neg (fun h => hnot inp (by simp) h.symm)]
        exact hacc

/-- C10: for a coinbase transaction `VerifyTransaction` returns true on every ledger and
with any fuel, also none, so without a lookup; for a transaction that is not coinbase and
whose inputs all reference IDs that `FindTransaction` finds, it returns what `tx.Verify`
returns on the context that has, for every input, the transaction found for the
referenced ID under the hex encoding of that ID, and no other key. -/
theorem VerifyTransaction_spec (c : Codec) (tx : Transaction) :
    (c.IsCoinbase tx = true →
      ∀ (fuel : Nat) (bc : Blockchain), bc.VerifyTransaction c fuel tx = .ok true) ∧
    (c.IsCoinbase tx = false →
      ∀ (fuel : Nat) (bc : Blockchain),
        (∀ inp ∈ tx.Inputs, ∃ t, bc.FindTransaction c fuel inp.ID = .ok (some t)) →
        ∃ ctx, bc.VerifyTransaction c fuel tx = c.Verify tx ctx ∧
          ∀ k t, ctx.get k = some t ↔
            ∃ inp ∈ tx.Inputs, k = hexEncodeToString inp.ID ∧
              bc.FindTransaction c fuel inp.ID = .ok (some t)) := by
  constructor
  · intro hcb fuel bc
    simp [Blockchain.VerifyTransaction, hcb]
  · intro hcb fuel bc hall
    obtain ⟨ctx, hctx, hget⟩ := prevTXsLoop_spec c fuel bc tx.Inputs [] hall
    refine ⟨ctx, by simp [Blockchain.VerifyTransaction, hcb, hctx], ?_⟩
    intro k t
    rw [hget]
    simp [GoMap.get]

/-- Witness for `VerifyTransaction_spec`: the genesis coinbase transaction, and `exPay` on
`exLedger0`. -/
theorem VerifyTransaction_spec_witness :
    (∀ (fuel : Nat) (bc : Blockchain), bc.VerifyTransaction toyCodec fuel exCoinbase = .ok true) ∧
    ∃ ctx, exLedger0.VerifyTransaction toyCodec 1 exPay = toyCodec.Verify exPay ctx ∧
      ∀ k t, ctx.get k = some t ↔
        ∃ inp ∈ exPay.Inputs, k = hexEncodeToString inp.ID ∧
          exLedger0.FindTransaction toyCodec 1 inp.ID = .ok (some t) :=
  ⟨(VerifyTransaction_spec toyCodec exCoinbase).1 rfl,
    (VerifyTransaction_spec toyCodec exPay).2 rfl 1 exLedger0 (by
      intro inp hinp
      rw [List.mem_singleton.1 hinp]
      exact ⟨exCoinbase, by decide⟩)⟩

/-! ## C4 -/

/-- C4 (amended): in a ledger built by `InitBlockchain` and successful `AddBlock` calls,
when some appended transaction has the given ID, `FindTransaction` returns, without error,
the first transaction with that ID in the order of the scan (tip to genesis, and inside a
block in list order); this is the appended transaction itself when it is the only one in
the chain with that ID. When no appended transaction has the ID, it returns the not-found
error. -/
theorem FindTransaction_reached (c : Codec) (hc : c.Lawful) (address : String)
    (bs : List Block) (chain : Blockchain) (h : Reached c address bs chain)
    (ID : Bytes) (fuel : Nat) (hfuel : bs.length ≤ fuel) :
    (∀ tx ∈ scanTxs bs, tx.ID = ID →
      ∃ pre t post, scanTxs bs = pre ++ t :: post ∧ (∀ x ∈ pre, x.ID ≠ ID) ∧ t.ID = ID ∧
        chain.FindTransaction c fuel ID = .ok (some t) ∧
        ((∀ x ∈ scanTxs bs, x.ID = ID → x = tx) → t = tx)) ∧
    ((∀ tx ∈ scanTxs bs, tx.ID ≠ ID) → chain.FindTransaction c fuel ID = .ok none) := by
  have hb := chainBlocks_mono c _ fuel _ _ (h.chainBlocks hc) hfuel
  have hfind : chain.FindTransaction c fuel ID = .ok (findTx (scanTxs bs) ID) :=
    FindTransaction_loop_eq c ID fuel chain.Iterator bs hb
  constructor
  · intro tx htx hid
    cases hf : findTx (scanTxs bs) ID with
    | none => exact absurd hid (findTx_none.1 hf tx htx)
    | some t =>
      obtain ⟨hpt, pre, post, hsplit, hpre⟩ := List.find?_eq_some.1 hf
      have htid : t.ID = ID := by simpa using hpt
      refine ⟨pre, t, post, hsplit, ?_, htid, by rw [hfind, hf], ?_⟩
      · intro x hx
        simpa using hpre x hx
      · intro huniq
        exact huniq t (by rw [hsplit]; simp) htid
  · intro hnone
    rw [hfind, findTx_none.2 hnone]

/-- Witness for `FindTransaction_reached`: looking up the ID of `exPay` in `exLedger2`. -/
theorem FindTransaction_reached_witness :
    (∀ tx ∈ scanTxs [exBlock2, exBlock1, exGenesis], tx.ID = [7] →
      ∃ pre t post, scanTxs [exBlock2, exBlock1, exGenesis] = pre ++ t :: post ∧
        (∀ x ∈ pre, x.ID ≠ [7]) ∧ t.ID = [7] ∧
        exLedger2.FindTransaction toyCodec 3 [7] = .ok (some t) ∧
        ((∀ x ∈ scanTxs [exBlock2, exBlock1, exGenesis], x.ID = [7] → x = tx) → t = tx)) ∧
    ((∀ tx ∈ scanTxs [exBlock2, exBlock1, exGenesis], tx.ID ≠ [7]) →
      exLedger2.FindTransaction toyCodec 3 [7] = .ok none) :=
  FindTransaction_reached toyCodec toyCodec_lawful "A" [exBlock2, exBlock1, exGenesis]
    exLedger2 exLedger2_reached [7] 3 (by decide)

theorem exLedgerD_add :
    exLedger0.AddBlock toyCodec 1 [exDup] = (.ok exBlockD, exLedgerD) := by rfl

/-- C4 as stated fails: `exLedgerD` is built by `InitBlockchain` and one successful
`AddBlock`; the genesis coinbase transaction was appended, and `FindTransaction` on its ID
returns another transaction, the coinbase transaction `exDup` of the second block, which
has the same ID. -/
theorem FindTransaction_reached_counterexample :
    Reached toyCodec "A" [exBlockD, exGenesis] exLedgerD ∧
    exCoinbase ∈ scanTxs [exBlockD, exGenesis] ∧
    exLedgerD.FindTransaction toyCodec 2 exCoinbase.ID = .ok (some exDup) ∧
    exDup ≠ exCoinbase :=
  ⟨Reached.add exLedger0_reached exLedgerD_add, by decide, by decide, by decide⟩

/-! ## C2 -/

theorem FindTransaction_loop_mem (c : Codec) (ID : Bytes) :
    ∀ (fuel : Nat) (iter : BlockchainIterator) (t : Transaction),
      FindTransaction.loop c ID fuel iter = .ok (some t) →
      ∀ (n : Nat) (bs : List Block), chainBlocks c n iter = .ok bs → t ∈ scanTxs bs
  | 0, _, _, h, _, _, _ => by simp [FindTransaction.loop] at h
  | _ + 1, _, _, _, 0, _, hb => by simp [chainBlocks] at hb
  | fuel + 1, iter, t, h, n + 1, bs, hb => by
    simp only [FindTransaction.loop] at h
    simp only [chainBlocks] at hb
    cases hnext : iter.Next c with
    | error e => simp [hnext] at h
    | ok p =>
      obtain ⟨block, iter'⟩ := p
      simp only [hnext] at h hb
      have hsub : ∀ x ∈ block.Transactions, x ∈ scanTxs bs := by
        intro x hx
        split at hb
        · injection hb with hb
          subst hb
          simpa [scanTxs] using hx
        · split at hb
          · exact absurd hb (by simp)
          · injection hb with hb
            subst hb
            rw [scanTxs_cons]
            exact List.mem_append_left _ hx
      split at h
      · rename_i tx hfind
        simp only [Except.ok.injEq, Option.some.injEq] at h
        subst h
        exact hsub _ (List.mem_of_find?_eq_some hfind)
      · split at h
        · simp at h
        · rename_i hp
          rw [if_neg hp] at hb
          split at hb
          · exact absurd hb (by simp)
          · rename_i rest hrest
            injection hb with hb
            subst hb
            rw [scanTxs_cons]
            exact List.mem_append_right _
              (FindTransaction_loop_mem c ID fuel iter' t h n rest hrest)

theorem prevTXsLoop_ok (c : Codec) (fuel : Nat) (bc : Blockchain) :
    ∀ (inputs : List TxInput) (acc ctx : GoMap Transaction),
      prevTXsLoop c fuel bc inputs acc = .ok ctx →
      ∀ inp ∈ inputs, ∃ t, bc.FindTransaction c fuel inp.ID = .ok (some t)
  | [], _, _, _ => by simp
  | i :: rest, acc, ctx, h => by
    simp only [prevTXsLoop] at h
    split at h
    · exact absurd h (by simp)
    · exact absurd h (by simp)
    · rename_i prevTX hfind
      intro inp hinp
      rcases List.mem_cons.1 hinp with rfl | hinp
      · exact ⟨prevTX, hfind⟩
      · exact prevTXsLoop_ok c fuel bc rest _ ctx h inp hinp

/-- A transaction that `VerifyTransaction` accepts is coinbase, or each of its inputs
references the ID of a transaction of the chain. -/
theorem VerifyTransaction_inputs (c : Codec) (fuel : Nat) (bc : Blockchain) (tx : Transaction)
    (n : Nat) (bs : List Block) (hb : chainBlocks c n bc.Iterator = .ok bs)
    (h : bc.VerifyTransaction c fuel tx = .ok true) :
    c.IsCoinbase tx = true ∨ ∀ inp ∈ tx.Inputs, ∃ t ∈ scanTxs bs, t.ID = inp.ID := by
  cases hcb : c.IsCoinbase tx with
  | true => exact Or.inl rfl
  | false =>
    right
    simp only [Blockchain.VerifyTransaction, hcb, Bool.false_eq_true, if_false] at h
    split at h
    · exact absurd h (by simp)
    · rename_i ctx hctx
      intro inp hinp
      obtain ⟨t, ht⟩ := prevTXsLoop_ok c fuel bc tx.Inputs [] ctx hctx inp hinp
      exact ⟨t, FindTransaction_loop_mem c inp.ID fuel _ t ht n bs hb,
        FindTransaction_loop_id c inp.ID fuel _ t ht⟩

theorem Reached.resolved {c : Codec} (hc : c.Lawful) (hcb : c.CoinbaseLawful)
    {address : String} {bs : List Block} {chain : Blockchain}
    (h : Reached c address bs chain) : resolved c bs := by
  induction h with
  | init _ =>
    refine ⟨?_, trivial⟩
    intro s hs
    rw [hc.genesis_transactions] at hs
    rw [List.mem_singleton.1 hs]
    exact Or.inl (hcb.coinbaseTx_isCoinbase _ _)
  | @add bs chain chain' fuel txs b hr hadd ih =>
    obtain ⟨hv, lastHash, _, hb, _⟩ := AddBlock_ok c fuel chain chain' txs b hadd
    refine ⟨?_, ih⟩
    intro s hs
    rw [hb, hc.create_transactions] at hs
    exact VerifyTransaction_inputs c fuel chain s _ bs (hr.chainBlocks hc)
      ((verifyLoop_ok c fuel chain txs).1 hv s hs)
  | resume _ _ ih => exact ih

theorem resolved_split (c : Codec) :
    ∀ (bs : List Block), resolved c bs →
      ∀ s ∈ scanTxs bs, c.IsCoinbase s = false → ∀ inp ∈ s.Inputs,
        ∃ pre t post, scanTxs bs = pre ++ t :: post ∧ s ∈ pre ∧ t.ID = inp.ID
  | [], _, s, hs, _, _, _ => by simp [scanTxs] at hs
  | b :: older, hr, s, hs, hcb, inp, hinp => by
    obtain ⟨hb, hr'⟩ := hr
    rw [scanTxs_cons] at hs ⊢
    rcases List.mem_append.1 hs with hs | hs
    · rcases hb s hs with h | h
      · rw [h] at hcb
        exact absurd hcb (by simp)
      · obtain ⟨t, ht, hid⟩ := h inp hinp
        obtain ⟨q, post, hq⟩ := List.append_of_mem ht
        exact ⟨b.Transactions ++ q, t, post, by rw [hq, List.append_assoc],
          List.mem_append_left _ hs, hid⟩
    · obtain ⟨pre, t, post, hsplit, hspre, hid⟩ := resolved_split c older hr' s hs hcb inp hinp
      exact ⟨b.Transactions ++ pre, t, post, by rw [hsplit, List.append_assoc],
        List.mem_append_right _ hspre, hid⟩

theorem unspentFor_none (c : Codec) (key : String) :
    ∀ (txs pre : List Transaction), (∀ x ∈ txs, hexEncodeToString x.ID ≠ key) →
      unspentFor c key pre txs = []
  | [], _, _ => rfl
  | t :: rest, pre, h => by
    simp only [unspentFor, h t (by simp), if_false, List.nil_append]
    exact unspentFor_none c key rest _ (fun x hx => h x (List.mem_cons_of_mem _ hx))

theorem unspentFor_single (c : Codec) (key : String) (t : Transaction)
    (post : List Transaction) (ht : hexEncodeToString t.ID = key)
    (hpost : ∀ x ∈ post, hexEncodeToString x.ID ≠ key) :
    ∀ (p pre : List Transaction), (∀ x ∈ p, hexEncodeToString x.ID ≠ key) →
      unspentFor c key pre (p ++ t :: post) = kept (recorded c (pre ++ p) key) 0 t.Outputs
  | [], pre, _ => by
    simp only [List.nil_append, unspentFor, ht, if_true, List.append_nil]
    rw [unspentFor_none c key post _ hpost, List.append_nil]
  | x :: p, pre, hp => by
    have ih := unspentFor_single c key t post ht hpost p (pre ++ [x])
      (fun y hy => hp y (List.mem_cons_of_mem _ hy))
    rw [List.cons_append, unspentFor, if_neg (hp x (by simp)), List.nil_append, ih]
    simp [List.append_assoc]

/-- C2 (amended): take a ledger built by `InitBlockchain` and successful `AddBlock` calls
whose appended blocks are `older`, and any ledger obtained from it by further successful
`AddBlock` calls, appending the blocks `newer`; suppose that the transactions of the
chain have pairwise distinct IDs. Then for every input of every transaction stored in
`older` and the transaction `t` of the chain with the referenced ID, the list that
`FindUTXO` returns under the hex encoding of that ID is the list of the outputs of `t`
without those at the indices of a set `sp`, and the output index of the input is in `sp`
(the key is missing when no output is left). -/
theorem spent_output_absent (c : Codec) (hc : c.Lawful) (hcb : c.CoinbaseLawful)
    (address : String) (newer older : List Block) (chain : Blockchain)
    (h : Reached c address (newer ++ older) chain)
    (hids : ((scanTxs (newer ++ older)).map fun tx => tx.ID).Nodup)
    (fuel : Nat) (hfuel : (newer ++ older).length ≤ fuel)
    (s : Transaction) (hs : s ∈ scanTxs older) (inp : TxInput) (hinp : inp ∈ s.Inputs)
    (t : Transaction) (ht : t ∈ scanTxs (newer ++ older)) (hid : t.ID = inp.ID) :
    ∃ m sp, chain.FindUTXO c fuel = .ok m ∧
      m.get (hexEncodeToString t.ID) =
        (if kept sp 0 t.Outputs = [] then none else some ⟨kept sp 0 t.Outputs⟩) ∧
      ∀ i : Nat, inp.Out = (i : Int) → (i : Int) ∈ sp := by
  have hb := chainBlocks_mono c _ fuel _ _ (h.chainBlocks hc) hfuel
  obtain ⟨m, hm, hget⟩ := FindUTXO_get c fuel chain _ hb
  have hs' : s ∈ scanTxs (newer ++ older) := by
    rw [scanTxs_append]
    exact List.mem_append_right _ hs
  have hinj := List.inj_on_of_nodup_map hids
  obtain ⟨pre, post, hsplit, hspre⟩ : ∃ pre post, scanTxs (newer ++ older) = pre ++ t :: post ∧
      (c.IsCoinbase s = false → s ∈ pre) := by
    cases hsc : c.IsCoinbase s with
    | true =>
      obtain ⟨pre, post, hsplit⟩ := List.append_of_mem ht
      exact ⟨pre, post, hsplit, fun h => absurd h (by simp)⟩
    | false =>
      obtain ⟨pre, t', post, hsplit, hspre, hid'⟩ :=
        resolved_split c _ (h.resolved hc hcb) s hs' hsc inp hinp
      have htt : t' = t := hinj (by rw [hsplit]; simp) ht (by rw [hid', hid])
      subst htt
      exact ⟨pre, post, hsplit, fun _ => hspre⟩
  rw [hsplit, List.map_append, List.map_cons] at hids
  have hno : ∀ x, x ∈ pre ∨ x ∈ post → hexEncodeToString x.ID ≠ hexEncodeToString t.ID := by
    intro x hx hxe
    have hxid := hexEncodeToString_injective _ _ hxe
    rw [List.nodup_append] at hids
    obtain ⟨_, h2, h3⟩ := hids
    rcases hx with hx | hx
    · exact h3 (List.mem_map.2 ⟨x, hx, by exact hxid⟩) (by simp)
    · exact (List.nodup_cons.1 h2).1 (List.mem_map.2 ⟨x, hx, by exact hxid⟩)
  refine ⟨m, recorded c pre (hexEncodeToString t.ID), hm, ?_, ?_⟩
  · rw [hget, hsplit, unspentFor_single c _ t post rfl (fun x hx => hno x (Or.inr hx)) pre []
      (fun x hx => hno x (Or.inl hx))]
    simp
  · intro i hi
    cases hsc : c.IsCoinbase s with
    | true =>
      have := hcb.coinbase_inputs s hsc inp hinp
      omega
    | false =>
      exact (mem_recorded c pre _ _).2 ⟨s, hspre hsc, hsc, inp, hinp, by rw [hid], hi⟩

/-- Witness for `spent_output_absent`: in `exLedger1` the input of `exPay` spends output 0
of the genesis coinbase transaction. -/
theorem spent_output_absent_witness :
    ∃ m sp, exLedger1.FindUTXO toyCodec 2 = .ok m ∧
      m.get (hexEncodeToString exCoinbase.ID) =
        (if kept sp 0 exCoinbase.Outputs = [] then none
          else some ⟨kept sp 0 exCoinbase.Outputs⟩) ∧
      ∀ i : Nat, (⟨exCoinbase.ID, 0, strBytes "A"⟩ : TxInput).Out = (i : Int) → (i : Int) ∈ sp :=
  spent_output_absent toyCodec toyCodec_lawful toyCodec_coinbaseLawful "A" []
    [exBlock1, exGenesis] exLedger1 exLedger1_reached (by decide) 2 (by decide)
    exPay (by decide) ⟨exCoinbase.ID, 0, strBytes "A"⟩ (by decide) exCoinbase (by decide) rfl

/-- C2 as stated fails: `exLedger2` is built by `InitBlockchain` and two successful
`AddBlock` calls, the first appending `exPay`, whose input references output 0 of the
genesis coinbase transaction, and the second appending a second copy of that coinbase
transaction. After the first call the map of `FindUTXO` has no key for the genesis
coinbase transaction; after the second call the output is listed again. -/
theorem spent_output_absent_counterexample :
    Reached toyCodec "A" [exBlock1, exGenesis] exLedger1 ∧
    Reached toyCodec "A" [exBlock2, exBlock1, exGenesis] exLedger2 ∧
    exPay ∈ scanTxs [exBlock1, exGenesis] ∧
    (⟨exCoinbase.ID, 0, strBytes "A"⟩ : TxInput) ∈ exPay.Inputs ∧
    (exLedger1.FindUTXO toyCodec 2).map
      (fun m => m.get (hexEncodeToString exCoinbase.ID)) = .ok none ∧
    (exLedger2.FindUTXO toyCodec 3).map
      (fun m => m.get (hexEncodeToString exCoinbase.ID)) = .ok (some ⟨exCoinbase.Outputs⟩) :=
  ⟨exLedger1_reached, exLedger2_reached, by decide, by decide, by decide, by decide⟩

/-! ## C11 -/

theorem prevTXsLoop_missing (c : Codec) (fuel : Nat) (bc : Blockchain) :
    ∀ (inputs : List TxInput) (acc : GoMap Transaction),
      (∃ inp ∈ inputs, bc.FindTransaction c fuel inp.ID = .ok none) →
      ∃ e, prevTXsLoop c fuel bc inputs acc = .error e ∧
        ((∀ inp ∈ inputs, ∀ e', bc.FindTransaction c fuel inp.ID = .error e' → e' = .panic) →
          e = .panic)
  | [], _, h => by
    obtain ⟨inp, hinp, _⟩ := h
    simp at hinp
  | i :: rest, acc, h => by
    simp only [prevTXsLoop]
    cases hf : bc.FindTransaction c fuel i.ID with
    | error e => exact ⟨e, rfl, fun hp => hp i (by simp) e hf⟩
    | ok r =>
      cases r with
      | none => exact ⟨.panic, rfl, fun _ => rfl⟩
      | some prevTX =>
        obtain ⟨inp, hinp, hnone⟩ := h
        rcases List.mem_cons.1 hinp with rfl | hmem
        · rw [hf] at hnone
          exact absurd hnone (by simp)
        · obtain ⟨e, he, hp⟩ := prevTXsLoop_missing c fuel bc rest
            (acc.set (hexEncodeToString prevTX.ID) prevTX) ⟨inp, hmem, hnone⟩
          exact ⟨e, he, fun hall => hp fun j hj => hall j (List.mem_cons_of_mem _ hj)⟩

/-- C11: when some input of a transaction that is not coinbase references an ID that
`FindTransaction` does not find, `VerifyTransaction` returns no boolean but fails, and
`SignTransaction` fails with the same fault whatever the method `tx.Sign` is, so without
invoking it, and leaves the transaction as it was; the fault is the panic of `Handle`
unless a lookup itself failed otherwise (ran out of fuel). -/
theorem missing_input_fatal (c : Codec) (fuel : Nat) (bc : Blockchain) (tx : Transaction)
    (hcb : c.IsCoinbase tx = false)
    (h : ∃ inp ∈ tx.Inputs, bc.FindTransaction c fuel inp.ID = .ok none) :
    ∃ e, bc.VerifyTransaction c fuel tx = .error e ∧
      (∀ (Key : Type)
          (sign : Transaction → Key → GoMap Transaction → Except Fault Unit × Transaction)
          (prevKey : Key),
        bc.SignTransaction c sign fuel tx prevKey = (.error e, tx)) ∧
      ((∀ inp ∈ tx.Inputs, ∀ e', bc.FindTransaction c fuel inp.ID = .error e' → e' = .panic) →
        e = .panic) := by
  obtain ⟨e, he, hp⟩ := prevTXsLoop_missing c fuel bc tx.Inputs [] h
  refine ⟨e, ?_, ?_, hp⟩
  · simp [Blockchain.VerifyTransaction, hcb, he]
  · intro Key sign prevKey
    simp [Blockchain.SignTransaction, he]

/-- Witness for `missing_input_fatal`: `exOrphan`, whose input references an ID that is
not in the chain of `exLedger1`. -/
theorem missing_input_fatal_witness :
    ∃ e, exLedger1.VerifyTransaction toyCodec 2 exOrphan = .error e ∧
      (∀ (Key : Type)
          (sign : Transaction → Key → GoMap Transaction → Except Fault Unit × Transaction)
          (prevKey : Key),
        exLedger1.SignTransaction toyCodec sign 2 exOrphan prevKey = (.error e, exOrphan)) ∧
      ((∀ inp ∈ exOrphan.Inputs, ∀ e',
          exLedger1.FindTransaction toyCodec 2 inp.ID = .error e' → e' = .panic) →
        e = .panic) :=
  missing_input_fatal toyCodec 2 exLedger1 exOrphan rfl
    ⟨⟨[8], 0, []⟩, by decide, by decide⟩

/-! ## C13 -/

theorem Next_database (c : Codec) (iter iter' : BlockchainIterator) (b : Block)
    (h : iter.Next c = .ok (b, iter')) :
    iter'.Database = iter.Database ∧ iter'.CurrentHash = b.PrevHash := by
  unfold BlockchainIterator.Next at h
  split at h
  · exact absurd h (by simp)
  · split at h
    · exact absurd h (by simp)
    · simp only [Except.ok.injEq, Prod.mk.injEq] at h
      obtain ⟨h1, h2⟩ := h
      subst h1 h2
      exact ⟨rfl, rfl⟩

/-- C13: `FindUTXO` reads the ledger through a fresh iterator that starts at `LastHash` on
the same store, and no call of `Next` changes the store of the iterator; on a well-formed
chain every call of `FindUTXO` that is given enough fuel returns one and the same map, so
that two consecutive calls return identical maps. -/
theorem FindUTXO_idempotent (c : Codec) (fuel : Nat) (chain : Blockchain) (bs : List Block)
    (hwf : chainBlocks c fuel chain.Iterator = .ok bs) :
    (chain.Iterator.CurrentHash = chain.LastHash ∧ chain.Iterator.Database = chain.Database) ∧
    (∀ (iter iter' : BlockchainIterator) (b : Block),
      iter.Next c = .ok (b, iter') → iter'.Database = iter.Database) ∧
    ∃ m, ∀ fuel₁ fuel₂, bs.length ≤ fuel₁ → bs.length ≤ fuel₂ →
      chain.FindUTXO c fuel₁ = .ok m ∧ chain.FindUTXO c fuel₂ = .ok m := by
  refine ⟨⟨rfl, rfl⟩, fun iter iter' b h => (Next_database c iter iter' b h).1, ?_⟩
  have hex := chainBlocks_exact c fuel _ bs hwf
  refine ⟨((scanTxs bs).foldl (utxoTx c) ([], [])).1, ?_⟩
  intro fuel₁ fuel₂ h1 h2
  constructor
  · simp [Blockchain.FindUTXO, FindUTXO_loop_eq, chainBlocks_mono c _ fuel₁ _ bs hex h1]
  · simp [Blockchain.FindUTXO, FindUTXO_loop_eq, chainBlocks_mono c _ fuel₂ _ bs hex h2]

/-- Witness for `FindUTXO_idempotent`, on `exLedger2`. -/
theorem FindUTXO_idempotent_witness :
    (exLedger2.Iterator.CurrentHash = exLedger2.LastHash ∧
      exLedger2.Iterator.Database = exLedger2.Database) ∧
    (∀ (iter iter' : BlockchainIterator) (b : Block),
      iter.Next toyCodec = .ok (b, iter') → iter'.Database = iter.Database) ∧
    ∃ m, ∀ fuel₁ fuel₂, [exBlock2, exBlock1, exGenesis].length ≤ fuel₁ →
      [exBlock2, exBlock1, exGenesis].length ≤ fuel₂ →
      exLedger2.FindUTXO toyCodec fuel₁ = .ok m ∧ exLedger2.FindUTXO toyCodec fuel₂ = .ok m :=
  FindUTXO_idempotent toyCodec 3 exLedger2 [exBlock2, exBlock1, exGenesis]
    (exLedger2_reached.chainBlocks toyCodec_lawful)

/-! ## C14 -/

/-- C14: with the existence of the manifest file as a boolean, `InitBlockchain` exits,
whatever the block functions are (nothing is built or written), when the manifest exists
and returns a ledger when it does not; `ContinueBlockChain` exits when the manifest does
not exist and returns a ledger only when it exists. -/
theorem manifest_gate (c : Codec) (address : String) :
    InitBlockchain c (DBexists true) address = .error .goexit ∧
    (∃ chain, InitBlockchain c (DBexists false) address = .ok chain) ∧
    (∀ manifest chain, InitBlockchain c (DBexists manifest) address = .ok chain →
      manifest = false) ∧
    (∀ db, ContinueBlockChain c (DBexists false) db address = .error .goexit) ∧
    (∀ manifest db chain, ContinueBlockChain c (DBexists manifest) db address = .ok chain →
      manifest = true) ∧
    (∀ db val, db lhKey = some val →
      ContinueBlockChain c (DBexists true) db address = .ok ⟨val, db⟩) := by
  refine ⟨rfl, ⟨_, rfl⟩, ?_, fun _ => rfl, ?_, ?_⟩
  · intro manifest chain h
    cases manifest with
    | false => rfl
    | true => simp [InitBlockchain, DBexists] at h
  · intro manifest db chain h
    cases manifest with
    | true => rfl
    | false => simp [ContinueBlockChain, DBexists] at h
  · intro db val hval
    simp [ContinueBlockChain, DBexists, hval]

/-- Witness for `manifest_gate`: `InitBlockchain` with the manifest present, and
`ContinueBlockChain` on the database of `exLedger1`. -/
theorem manifest_gate_witness :
    InitBlockchain toyCodec (DBexists true) "A" = .error .goexit ∧
    ContinueBlockChain toyCodec (DBexists true) exLedger1.Database "A" = .ok exLedger1 :=
  ⟨(manifest_gate toyCodec "A").1,
    (manifest_gate toyCodec "A").2.2.2.2.2 exLedger1.Database exLedger1.LastHash rfl⟩

/-! ## C15 -/

/-- C15: when `CurrentHash` is a key of the store, `Next` deserialises the bytes stored
under it and, when that gives a block, returns the block and moves `CurrentHash` to the
`PrevHash` of the block, the store of the iterator staying the same (a failure of
`Deserialize` is the failure of `Next`); when `CurrentHash` is not a key of the store,
`Next` panics and returns no block. -/
theorem Next_spec (c : Codec) (iter : BlockchainIterator) :
    (∀ encodedBlock, iter.Database iter.CurrentHash = some encodedBlock →
      (∀ block, c.Deserialize encodedBlock = .ok block →
        iter.Next c = .ok (block, ⟨block.PrevHash, iter.Database⟩)) ∧
      (∀ e, c.Deserialize encodedBlock = .error e → iter.Next c = .error e)) ∧
    (iter.Database iter.CurrentHash = none → iter.Next c = .error .panic) := by
  constructor
  · intro encodedBlock h
    constructor
    · intro block hb
      simp [BlockchainIterator.Next, h, hb]
    · intro e he
      simp [BlockchainIterator.Next, h, he]
  · intro h
    simp [BlockchainIterator.Next, h]

/-- Witness for `Next_spec`: the first call of `Next` on `exLedger1`, and a call at the
empty hash. -/
theorem Next_spec_witness :
    exLedger1.Iterator.Next toyCodec = .ok (exBlock1, ⟨exBlock1.PrevHash, exLedger1.Database⟩) ∧
    BlockchainIterator.Next toyCodec ⟨[], exLedger1.Database⟩ = .error .panic :=
  ⟨((Next_spec toyCodec exLedger1.Iterator).1 (toyCodec.Serialize exBlock1)
      ((exLedger1_reached.inv toyCodec_lawful).stored exBlock1 (by simp))).1 exBlock1
      (toyCodec_lawful.deserialize_serialize exBlock1),
    (Next_spec toyCodec ⟨[], exLedger1.Database⟩).2 (by decide)⟩

/-! ## C17 -/

/-- C17: on a well-formed chain `FindTransaction(id)` returns a transaction exactly when it
is the first one with that ID in the order of the scan (blocks from tip to genesis, and
inside a block in list order: no transaction before it in the scan has the ID), so that of
several transactions with one ID the most recent wins; and it returns the not-found error
exactly when no transaction of the chain has that ID. -/
theorem FindTransaction_first (c : Codec) (fuel : Nat) (chain : Blockchain) (bs : List Block)
    (hwf : chainBlocks c fuel chain.Iterator = .ok bs) (ID : Bytes) :
    (∀ t, chain.FindTransaction c fuel ID = .ok (some t) ↔
      ∃ pre post, scanTxs bs = pre ++ t :: post ∧ t.ID = ID ∧ ∀ x ∈ pre, x.ID ≠ ID) ∧
    (chain.FindTransaction c fuel ID = .ok none ↔ ∀ tx ∈ scanTxs bs, tx.ID ≠ ID) ∧
    ((∃ t, chain.FindTransaction c fuel ID = .ok (some t)) ∨
      chain.FindTransaction c fuel ID = .ok none) := by
  have hfind : chain.FindTransaction c fuel ID = .ok (findTx (scanTxs bs) ID) :=
    FindTransaction_loop_eq c ID fuel chain.Iterator bs hwf
  rw [hfind]
  refine ⟨?_, ?_, ?_⟩
  · intro t
    simp only [Except.ok.injEq, findTx, List.find?_eq_some, decide_eq_true_eq,
      Bool.not_eq_true', decide_eq_false_iff_not]
    constructor
    · rintro ⟨hid, pre, post, hsplit, hpre⟩
      exact ⟨pre, post, hsplit, hid, hpre⟩
    · rintro ⟨pre, post, hsplit, hid, hpre⟩
      exact ⟨hid, pre, post, hsplit, hpre⟩
  · simp only [Except.ok.injEq]
    exact findTx_none
  · cases findTx (scanTxs bs) ID with
    | none => exact Or.inr rfl
    | some t => exact Or.inl ⟨t, rfl⟩

/-- Witness for `FindTransaction_first`: the lookup of the genesis coinbase ID in
`exLedgerD`, where two transactions have that ID. -/
theorem FindTransaction_first_witness :
    (∀ t, exLedgerD.FindTransaction toyCodec 2 exCoinbase.ID = .ok (some t) ↔
      ∃ pre post, scanTxs [exBlockD, exGenesis] = pre ++ t :: post ∧ t.ID = exCoinbase.ID ∧
        ∀ x ∈ pre, x.ID ≠ exCoinbase.ID) ∧
    (exLedgerD.FindTransaction toyCodec 2 exCoinbase.ID = .ok none ↔
      ∀ tx ∈ scanTxs [exBlockD, exGenesis], tx.ID ≠ exCoinbase.ID) ∧
    ((∃ t, exLedgerD.FindTransaction toyCodec 2 exCoinbase.ID = .ok (some t)) ∨
      exLedgerD.FindTransaction toyCodec 2 exCoinbase.ID = .ok none) :=
  FindTransaction_first toyCodec 2 exLedgerD [exBlockD, exGenesis]
    ((Reached.add exLedger0_reached exLedgerD_add).chainBlocks toyCodec_lawful) exCoinbase.ID

/-! ## C18 -/

theorem FindTransaction_loop_fault (c : Codec) (ID : Bytes) :
    ∀ (k : Nat) (iter : BlockchainIterator) (n : Nat) (bs : List Block),
      chainBlocks c n iter = .ok bs →
      ∀ e, FindTransaction.loop c ID k iter = .error e → e = .timeout
  | 0, _, _, _, _, e, h => by
    simp only [FindTransaction.loop, Except.error.injEq] at h
    exact h.symm
  | _ + 1, _, 0, _, hb, _, _ => by simp [chainBlocks] at hb
  | k + 1, iter, n + 1, bs, hb, e, h => by
    simp only [FindTransaction.loop] at h
    simp only [chainBlocks] at hb
    cases hnext : iter.Next c with
    | error e' => simp [hnext] at hb
    | ok p =>
      obtain ⟨block, iter'⟩ := p
      simp only [hnext] at h hb
      split at h
      · exact absurd h (by simp)
      · split at h
        · exact absurd h (by simp)
        · rename_i hp
          rw [if_neg hp] at hb
          split at hb
          · exact absurd hb (by simp)
          · rename_i rest hrest
            exact FindTransaction_loop_fault c ID k iter' n rest hrest e h

/-- C18: on a well-formed chain of `bs.length` blocks, `FindUTXO` returns when it may call
`Next` that many times and runs out of fuel with any smaller number of calls, so it makes
exactly that many; `FindTransaction` returns within that many calls; and with no number of
calls does either of them panic, the way a call of `Next` after the block with empty
`PrevHash` would. -/
theorem scans_terminate (c : Codec) (fuel : Nat) (chain : Blockchain) (bs : List Block)
    (hwf : chainBlocks c fuel chain.Iterator = .ok bs) :
    (∃ m, chain.FindUTXO c bs.length = .ok m) ∧
    (∀ k, k < bs.length → chain.FindUTXO c k = .error .timeout) ∧
    (∀ ID, ∃ r, chain.FindTransaction c bs.length ID = .ok r) ∧
    (∀ k, chain.FindUTXO c k ≠ .error .panic) ∧
    (∀ k ID, chain.FindTransaction c k ID ≠ .error .panic) := by
  have hex := chainBlocks_exact c fuel _ bs hwf
  refine ⟨?_, ?_, ?_, ?_, ?_⟩
  · exact ⟨((scanTxs bs).foldl (utxoTx c) ([], [])).1,
      by simp only [Blockchain.FindUTXO, FindUTXO_loop_eq, hex]⟩
  · intro k hk
    simp only [Blockchain.FindUTXO, FindUTXO_loop_eq, chainBlocks_short c fuel k _ bs hwf hk]
  · intro ID
    exact ⟨_, FindTransaction_loop_eq c ID _ chain.Iterator bs hex⟩
  · intro k hpanic
    by_cases hk : k < bs.length
    · have := chainBlocks_short c fuel k _ bs hwf hk
      simp [Blockchain.FindUTXO, FindUTXO_loop_eq, this] at hpanic
    · have := chainBlocks_mono c _ k _ bs hex (by omega)
      simp [Blockchain.FindUTXO, FindUTXO_loop_eq, this] at hpanic
  · intro k ID hpanic
    have := FindTransaction_loop_fault c ID k chain.Iterator fuel bs hwf .panic hpanic
    exact absurd this (by decide)

/-- Witness for `scans_terminate`, on `exLedger2`, a chain of three blocks. -/
theorem scans_terminate_witness :
    (∃ m, exLedger2.FindUTXO toyCodec [exBlock2, exBlock1, exGenesis].length = .ok m) ∧
    (∀ k, k < [exBlock2, exBlock1, exGenesis].length →
      exLedger2.FindUTXO toyCodec k = .error .timeout) ∧
    (∀ ID, ∃ r,
      exLedger2.FindTransaction toyCodec [exBlock2, exBlock1, exGenesis].length ID = .ok r) ∧
    (∀ k, exLedger2.FindUTXO toyCodec k ≠ .error .panic) ∧
    (∀ k ID, exLedger2.FindTransaction toyCodec k ID ≠ .error .panic) :=
  scans_terminate toyCodec 3 exLedger2 [exBlock2, exBlock1, exGenesis]
    (exLedger2_reached.chainBlocks toyCodec_lawful)

/-! ## C19 -/

theorem resolved_at (c : Codec) :
    ∀ (newer : List Block) (b : Block) (older : List Block),
      resolved c (newer ++ b :: older) →
      ∀ s ∈ b.Transactions, c.IsCoinbase s = true ∨
        ∀ inp ∈ s.Inputs, ∃ t ∈ scanTxs older, t.ID = inp.ID
  | [], _, _, h => h.1
  | _ :: newer, b, older, h => resolved_at c newer b older h.2

theorem prevTXsLoop_ids (c : Codec) (fuel : Nat) (bc : Blockchain) :
    ∀ (inputs inputs' : List TxInput) (acc : GoMap Transaction),
      (inputs.map fun inp => inp.ID) = (inputs'.map fun inp => inp.ID) →
      prevTXsLoop c fuel bc inputs acc = prevTXsLoop c fuel bc inputs' acc
  | [], [], _, _ => rfl
  | [], _ :: _, _, h => by simp at h
  | _ :: _, [], _, h => by simp at h
  | i :: rest, i' :: rest', acc, h => by
    simp only [List.map_cons, List.cons.injEq] at h
    simp only [prevTXsLoop, h.1]
    cases bc.FindTransaction c fuel i'.ID with
    | error e => rfl
    | ok r =>
      cases r with
      | none => rfl
      | some prevTX => exact prevTXsLoop_ids c fuel bc rest rest' _ h.2

/-- C19: in a ledger built by `InitBlockchain` and successful `AddBlock` calls, every input
of every transaction of a block that is not coinbase references the ID of a transaction of
a block appended before that block. The lookup that `VerifyTransaction` makes before it
calls `tx.Verify` depends only on the IDs that the inputs reference: two input lists with
the same IDs, whatever their output indices, give the same context or the same failure. -/
theorem inputs_reference_older (c : Codec) (hc : c.Lawful) (hcb : c.CoinbaseLawful)
    (address : String) (newer older : List Block) (b : Block) (chain : Blockchain)
    (h : Reached c address (newer ++ b :: older) chain) :
    (∀ s ∈ b.Transactions, c.IsCoinbase s = false →
      ∀ inp ∈ s.Inputs, ∃ t ∈ scanTxs older, t.ID = inp.ID) ∧
    (∀ (fuel : Nat) (bc : Blockchain) (inputs inputs' : List TxInput),
      (inputs.map fun inp => inp.ID) = (inputs'.map fun inp => inp.ID) →
      prevTXsLoop c fuel bc inputs [] = prevTXsLoop c fuel bc inputs' []) := by
  constructor
  · intro s hs hncb
    rcases resolved_at c newer b older (h.resolved hc hcb) s hs with hcoin | hres
    · rw [hcoin] at hncb
      exact absurd hncb (by simp)
    · exact hres
  · intro fuel bc inputs inputs' hids
    exact prevTXsLoop_ids c fuel bc inputs inputs' [] hids

/-- Witness for `inputs_reference_older`: the block of `exPay` in `exLedger2`. -/
theorem inputs_reference_older_witness :
    (∀ s ∈ exBlock1.Transactions, toyCodec.IsCoinbase s = false →
      ∀ inp ∈ s.Inputs, ∃ t ∈ scanTxs [exGenesis], t.ID = inp.ID) ∧
    (∀ (fuel : Nat) (bc : Blockchain) (inputs inputs' : List TxInput),
      (inputs.map fun inp => inp.ID) = (inputs'.map fun inp => inp.ID) →
      prevTXsLoop toyCodec fuel bc inputs [] = prevTXsLoop toyCodec fuel bc inputs' []) :=
  inputs_reference_older toyCodec toyCodec_lawful toyCodec_coinbaseLawful "A" [exBlock2]
    [exGenesis] exBlock1 exLedger2 exLedger2_reached

/-! ## C16 -/

theorem specOutputs_eq (spentTxs : GoMap (List Int)) (pairs : List (String × Int))
    (key : String)
    (hR : ∀ i : Int, i ∈ (spentTxs.get key).getD [] ↔ (key, i) ∈ pairs) :
    ∀ (outs : List TxOutput) (n : Nat) (UTXO : GoMap TxOutputs),
      outputsLoop spentTxs key n outs UTXO = specOutputs pairs key n outs UTXO
  | [], _, _ => rfl
  | out :: rest, n, UTXO => by
    simp only [outputsLoop, specOutputs, isSpent_eq, decide_eq_true_eq, hR]
    by_cases hn : (key, (n : Int)) ∈ pairs
    · simp only [hn, if_true]
      exact specOutputs_eq spentTxs pairs key hR rest (n + 1) UTXO
    · simp only [hn, if_false]
      exact specOutputs_eq spentTxs pairs key hR rest (n + 1) _

theorem inputsLoop_pairs (ins : List TxInput) (sp : GoMap (List Int))
    (pairs : List (String × Int))
    (hR : ∀ (key : String) (i : Int), i ∈ (sp.get key).getD [] ↔ (key, i) ∈ pairs) :
    ∀ (key : String) (i : Int), i ∈ ((inputsLoop ins sp).get key).getD [] ↔
      (key, i) ∈ pairs ++ ins.map fun inp => (hexEncodeToString inp.ID, inp.Out) := by
  intro key i
  rw [inputsLoop_getD, List.mem_append, List.mem_append, hR]
  simp only [List.mem_map, List.mem_filter, decide_eq_true_eq, Prod.mk.injEq]
  constructor
  · rintro (h | ⟨inp, ⟨hinp, hk⟩, hout⟩)
    · exact Or.inl h
    · exact Or.inr ⟨inp, hinp, hk, hout⟩
  · rintro (h | ⟨inp, hinp, hk, hout⟩)
    · exact Or.inl h
    · exact Or.inr ⟨inp, ⟨hinp, hk⟩, hout⟩

/-- The loop of `FindUTXO` and the pass of the spec go through the same states. -/
theorem utxoFold_eq_spec (c : Codec) :
    ∀ (txs : List Transaction) (st : GoMap TxOutputs × GoMap (List Int))
      (st' : GoMap TxOutputs × List (String × Int)),
      st.1 = st'.1 →
      (∀ (key : String) (i : Int), i ∈ (st.2.get key).getD [] ↔ (key, i) ∈ st'.2) →
      (txs.foldl (utxoTx c) st).1 = (txs.foldl (specTx c) st').1
  | [], _, _, h1, _ => h1
  | tx :: rest, st, st', h1, hR => by
    simp only [List.foldl_cons]
    apply utxoFold_eq_spec c rest
    · unfold utxoTx specTx
      have := specOutputs_eq st.2 st'.2 (hexEncodeToString tx.ID) (hR _) tx.Outputs 0 st.1
      rw [h1] at this
      cases c.IsCoinbase tx <;> simp [this, h1]
    · unfold utxoTx specTx
      cases hcb : c.IsCoinbase tx
      · simp only [if_true, Bool.false_eq_true, if_false]
        exact inputsLoop_pairs tx.Inputs st.2 st'.2 hR
      · simpa using hR

/-- C16: on a well-formed chain `FindUTXO` returns the map of the single backward pass of
the spec; and when the transaction IDs of the chain are distinct, the list under the hex
encoding of the ID of a transaction `tx` is the list of the outputs of `tx`, in their
order, at the indices that no input of a non-coinbase transaction visited before `tx` in
the scan references with the ID of `tx` (inputs of coinbase transactions are not
recorded). -/
theorem FindUTXO_refines_spec (c : Codec) (fuel : Nat) (chain : Blockchain)
    (bs : List Block) (hwf : chainBlocks c fuel chain.Iterator = .ok bs)
    (hids : ((scanTxs bs).map fun tx => tx.ID).Nodup) :
    ∃ m, chain.FindUTXO c fuel = .ok m ∧ m = specReconstructUTXO c bs ∧
      ∀ pre tx post, scanTxs bs = pre ++ tx :: post →
        ((m.get (hexEncodeToString tx.ID)).getD ⟨[]⟩).Outputs =
          kept (recorded c pre (hexEncodeToString tx.ID)) 0 tx.Outputs := by
  obtain ⟨m, hm, hget⟩ := FindUTXO_get c fuel chain bs hwf
  refine ⟨m, hm, ?_, ?_⟩
  · have hm' : chain.FindUTXO c fuel = .ok ((scanTxs bs).foldl (utxoTx c) ([], [])).1 := by
      simp [Blockchain.FindUTXO, FindUTXO_loop_eq, hwf]
    rw [hm] at hm'
    injection hm' with hm'
    rw [hm', specReconstructUTXO]
    exact utxoFold_eq_spec c (scanTxs bs) ([], []) ([], []) rfl (by simp [GoMap.get])
  · intro pre tx post hsplit
    rw [hsplit, List.map_append, List.map_cons, List.nodup_append] at hids
    obtain ⟨_, h2, h3⟩ := hids
    have hpre : ∀ x ∈ pre, hexEncodeToString x.ID ≠ hexEncodeToString tx.ID := by
      intro x hx hxe
      exact h3 (List.mem_map.2 ⟨x, hx, hexEncodeToString_injective _ _ hxe⟩) (by simp)
    have hpost : ∀ x ∈ post, hexEncodeToString x.ID ≠ hexEncodeToString tx.ID := by
      intro x hx hxe
      exact (List.nodup_cons.1 h2).1
        (List.mem_map.2 ⟨x, hx, hexEncodeToString_injective _ _ hxe⟩)
    rw [hget, hsplit, unspentFor_single c _ tx post rfl hpost pre [] hpre]
    simp only [List.nil_append]
    by_cases hk : kept (recorded c pre (hexEncodeToString tx.ID)) 0 tx.Outputs = []
    · simp [hk]
    · simp [hk]

/-- Witness for `FindUTXO_refines_spec`, on `exLedger1`. -/
theorem FindUTXO_refines_spec_witness :
    ∃ m, exLedger1.FindUTXO toyCodec 2 = .ok m ∧
      m = specReconstructUTXO toyCodec [exBlock1, exGenesis] ∧
      ∀ pre tx post, scanTxs [exBlock1, exGenesis] = pre ++ tx :: post →
        ((m.get (hexEncodeToString tx.ID)).getD ⟨[]⟩).Outputs =
          kept (recorded toyCodec pre (hexEncodeToString tx.ID)) 0 tx.Outputs :=
  FindUTXO_refines_spec toyCodec 2 exLedger1 [exBlock1, exGenesis]
    (exLedger1_reached.chainBlocks toyCodec_lawful) (by decide)

/-! ## C12 -/

/-- C12 (amended): after `InitBlockchain(address)`, whose genesis coinbase transaction has
one output, and one successful `AddBlock` of a single transaction that is not coinbase,
spends that output with its one input and has two outputs, the map that `FindUTXO`
returns has exactly one entry: under the hex encoding of the ID of the spending
transaction, the list of its two outputs. The genesis output is no longer in the map. -/
theorem FindUTXO_after_spend (c : Codec) (hc : c.Lawful) (address : String) (fuel : Nat)
    (chain0 chain1 : Blockchain) (b : Block) (tx : Transaction) (inp : TxInput)
    (o o1 o2 : TxOutput)
    (hinit : InitBlockchain c false address = .ok chain0)
    (hout : (c.CoinbaseTx address genesisData).Outputs = [o])
    (hncb : c.IsCoinbase tx = false)
    (hin : tx.Inputs = [inp])
    (hid : inp.ID = (c.CoinbaseTx address genesisData).ID) (hidx : inp.Out = 0)
    (houts : tx.Outputs = [o1, o2])
    (hadd : chain0.AddBlock c fuel [tx] = (.ok b, chain1)) :
    ∀ fuel', 2 ≤ fuel' →
      chain1.FindUTXO c fuel' = .ok [(hexEncodeToString tx.ID, ⟨[o1, o2]⟩)] := by
  intro fuel' hfuel'
  have hr : Reached c address [b, c.Genesis (c.CoinbaseTx address genesisData)] chain1 :=
    Reached.add (Reached.init hinit) hadd
  have hb := chainBlocks_mono c _ fuel' _ _ (hr.chainBlocks hc) (by simpa using hfuel')
  obtain ⟨_, lastHash, _, hbeq, _⟩ := AddBlock_ok c fuel chain0 chain1 [tx] b hadd
  have hbtx : b.Transactions = [tx] := by rw [hbeq, hc.create_transactions]
  have h1 : (utxoTx c ([], []) tx) =
      ([(hexEncodeToString tx.ID, ⟨[o1, o2]⟩)],
        [(hexEncodeToString (c.CoinbaseTx address genesisData).ID, [0])]) := by
    have h0 := outputsLoop_empty (hexEncodeToString tx.ID) [o1, o2] (by simp)
    unfold utxoTx
    simp only [hncb, houts, hin, h0, if_true]
    simp [inputsLoop, GoMap.get, GoMap.set, hid, hidx]
  simp only [Blockchain.FindUTXO, FindUTXO_loop_eq, hb, scanTxs, List.flatMap_cons,
    List.flatMap_nil, List.append_nil, hc.genesis_transactions, hbtx, List.singleton_append,
    List.foldl_cons, List.foldl_nil, h1]
  unfold utxoTx
  have h2 : outputsLoop [(hexEncodeToString (c.CoinbaseTx address genesisData).ID, [0])]
      (hexEncodeToString (c.CoinbaseTx address genesisData).ID) 0
      (c.CoinbaseTx address genesisData).Outputs
      [(hexEncodeToString tx.ID, ⟨[o1, o2]⟩)] = [(hexEncodeToString tx.ID, ⟨[o1, o2]⟩)] := by
    rw [hout]
    simp [outputsLoop, isSpent, GoMap.get]
  cases c.IsCoinbase (c.CoinbaseTx address genesisData) <;> simp [h2]

/-- Witness for `FindUTXO_after_spend`: `exPay` appended to the ledger of address `"A"`. -/
theorem FindUTXO_after_spend_witness :
    exLedger1.FindUTXO toyCodec 2 =
      .ok [(hexEncodeToString exPay.ID, ⟨[⟨60, strBytes "B"⟩, ⟨40, strBytes "A"⟩]⟩)] :=
  FindUTXO_after_spend toyCodec toyCodec_lawful "A" 1 exLedger0 exLedger1 exBlock1 exPay
    ⟨exCoinbase.ID, 0, strBytes "A"⟩ ⟨100, strBytes "A"⟩ ⟨60, strBytes "B"⟩
    ⟨40, strBytes "A"⟩ exLedger0_init rfl rfl rfl rfl rfl rfl exLedger1_add 2 (by decide)

/-- C12 as stated fails: after `InitBlockchain("A")` and the successful `AddBlock` of the
one transaction `exPay`, which is not coinbase, spends the genesis output and has two
outputs, to `"B"` and back to `"A"`, the map that `FindUTXO` returns has one entry, not
two. -/
theorem FindUTXO_after_spend_counterexample :
    InitBlockchain toyCodec false "A" = .ok exLedger0 ∧
    exLedger0.AddBlock toyCodec 1 [exPay] = (.ok exBlock1, exLedger1) ∧
    toyCodec.IsCoinbase exPay = false ∧
    exPay.Inputs = [⟨exCoinbase.ID, 0, strBytes "A"⟩] ∧
    exPay.Outputs = [⟨60, strBytes "B"⟩, ⟨40, strBytes "A"⟩] ∧
    (exLedger1.FindUTXO toyCodec 2).map List.length = .ok 1 :=
  ⟨exLedger0_init, exLedger1_add, rfl, rfl, rfl, by decide⟩

/-! ## C20 -/

theorem GoMap.keys_set {V : Type} (m : GoMap V) (k : String) (v : V) :
    (m.set k v).map Prod.fst =
      if k ∈ m.map Prod.fst then m.map Prod.fst else m.map Prod.fst ++ [k] := by
  induction m with
  | nil => simp [GoMap.set]
  | cons p rest ih =>
    obtain ⟨k0, v0⟩ := p
    by_cases h0 : k0 = k
    · subst h0
      simp [GoMap.set]
    · have h0' : ¬ k = k0 := fun h => h0 h.symm
      simp only [GoMap.set, h0, if_false, List.map_cons, ih, List.mem_cons, h0', false_or]
      by_cases hk : k ∈ rest.map Prod.fst
      · simp [hk]
      · simp [hk]

theorem GoMap.nodup_set {V : Type} (m : GoMap V) (k : String) (v : V)
    (h : (m.map Prod.fst).Nodup) : ((m.set k v).map Prod.fst).Nodup := by
  rw [GoMap.keys_set]
  by_cases hk : k ∈ m.map Prod.fst
  · rw [if_pos hk]
    exact h
  · rw [if_neg hk]
    exact List.Nodup.append h (by simp) (by simpa using hk)

theorem GoMap.get_of_mem {V : Type} :
    ∀ (m : GoMap V), (m.map Prod.fst).Nodup → ∀ p ∈ m, m.get p.1 = some p.2
  | [], _, _, hp => by simp at hp
  | (k0, v0) :: rest, h, p, hp => by
    simp only [List.map_cons, List.nodup_cons] at h
    rcases List.mem_cons.1 hp with rfl | hp
    · simp [GoMap.get]
    · have hne : k0 ≠ p.1 := by
        intro he
        exact h.1 (he ▸ List.mem_map_of_mem Prod.fst hp)
      simp only [GoMap.get, hne, if_false]
      exact GoMap.get_of_mem rest h.2 p hp

theorem outputsLoop_nodup (spentTxs : GoMap (List Int)) (key : String) :
    ∀ (outs : List TxOutput) (n : Nat) (UTXO : GoMap TxOutputs),
      (UTXO.map Prod.fst).Nodup →
      ((outputsLoop spentTxs key n outs UTXO).map Prod.fst).Nodup
  | [], _, _, h => h
  | out :: rest, n, UTXO, h => by
    simp only [outputsLoop]
    split
    · exact outputsLoop_nodup spentTxs key rest (n + 1) UTXO h
    · exact outputsLoop_nodup spentTxs key rest (n + 1) _ (GoMap.nodup_set _ _ _ h)

theorem utxoFold_nodup (c : Codec) :
    ∀ (txs : List Transaction) (st : GoMap TxOutputs × GoMap (List Int)),
      (st.1.map Prod.fst).Nodup → ((txs.foldl (utxoTx c) st).1.map Prod.fst).Nodup
  | [], _, h => h
  | tx :: rest, st, h => by
    simp only [List.foldl_cons]
    apply utxoFold_nodup c rest
    have h1 : (utxoTx c st tx).1 =
        outputsLoop st.2 (hexEncodeToString tx.ID) 0 tx.Outputs st.1 := by
      unfold utxoTx
      cases c.IsCoinbase tx <;> rfl
    rw [h1]
    exact outputsLoop_nodup _ _ _ _ _ h

theorem unspentFor_eq_nil (c : Codec) (key : String) (txs : List Transaction) :
    unspentFor c key [] txs = [] ↔
      ∀ pre tx post, txs = pre ++ tx :: post → hexEncodeToString tx.ID = key →
        kept (recorded c pre key) 0 tx.Outputs = [] := by
  constructor
  · intro h pre tx post hsplit hk
    apply List.eq_nil_iff_forall_not_mem.2
    intro o ho
    obtain ⟨i, hi, hni⟩ := (mem_kept _ o _ _).1 ho
    have : o ∈ unspentFor c key [] txs :=
      (mem_unspentFor c key o txs []).2 ⟨pre, tx, post, i, hsplit, hk, hi, by simpa using hni⟩
    rw [h] at this
    simp at this
  · intro h
    apply List.eq_nil_iff_forall_not_mem.2
    intro o ho
    obtain ⟨pre, tx, post, i, hsplit, hk, hi, hni⟩ := (mem_unspentFor c key o txs []).1 ho
    have : o ∈ kept (recorded c pre key) 0 tx.Outputs :=
      (mem_kept _ o _ _).2 ⟨i, hi, by simpa using hni⟩
    rw [h pre tx post hsplit hk] at this
    simp at this

/-- C20 (amended): on a well-formed chain every entry of the map that `FindUTXO` returns
has a non-empty output list and a key that is the hex encoding of the ID of some
transaction of the chain, and no key occurs twice. A key is missing from the map exactly
when every transaction of the chain with that ID had all its outputs skipped as spent; so
a transaction all of whose outputs were skipped has no key in the map unless another
transaction with the same ID has an output that was not skipped. -/
theorem FindUTXO_entries (c : Codec) (fuel : Nat) (chain : Blockchain) (bs : List Block)
    (hwf : chainBlocks c fuel chain.Iterator = .ok bs) :
    ∃ m, chain.FindUTXO c fuel = .ok m ∧
      (m.map Prod.fst).Nodup ∧
      (∀ p ∈ m, p.2.Outputs ≠ [] ∧ ∃ tx ∈ scanTxs bs, p.1 = hexEncodeToString tx.ID) ∧
      (∀ k, m.get k = none ↔
        ∀ pre tx post, scanTxs bs = pre ++ tx :: post → hexEncodeToString tx.ID = k →
          kept (recorded c pre k) 0 tx.Outputs = []) := by
  obtain ⟨m, hm, hget⟩ := FindUTXO_get c fuel chain bs hwf
  have hm' : chain.FindUTXO c fuel = .ok ((scanTxs bs).foldl (utxoTx c) ([], [])).1 := by
    simp [Blockchain.FindUTXO, FindUTXO_loop_eq, hwf]
  have hnd : (m.map Prod.fst).Nodup := by
    rw [hm] at hm'
    injection hm' with hm'
    rw [hm']
    exact utxoFold_nodup c _ _ (by simp)
  refine ⟨m, hm, hnd, ?_, ?_⟩
  · intro p hp
    have hg := GoMap.get_of_mem m hnd p hp
    rw [hget] at hg
    by_cases he : unspentFor c p.1 [] (scanTxs bs) = []
    · simp [he] at hg
    · rw [if_neg he] at hg
      have hp2 : p.2 = ⟨unspentFor c p.1 [] (scanTxs bs)⟩ := (Option.some.inj hg).symm
      refine ⟨by rw [hp2]; exact he, ?_⟩
      obtain ⟨o, ho⟩ := List.exists_mem_of_ne_nil _ he
      obtain ⟨pre, tx, post, i, hsplit, hk, _, _⟩ := (mem_unspentFor c _ o _ []).1 ho
      exact ⟨tx, by rw [hsplit]; simp, hk.symm⟩
  · intro k
    rw [hget, ← unspentFor_eq_nil]
    by_cases he : unspentFor c k [] (scanTxs bs) = []
    · simp [he]
    · simp [he]

/-- Witness for `FindUTXO_entries`, on `exLedger2`. -/
theorem FindUTXO_entries_witness :
    ∃ m, exLedger2.FindUTXO toyCodec 3 = .ok m ∧
      (m.map Prod.fst).Nodup ∧
      (∀ p ∈ m, p.2.Outputs ≠ [] ∧
        ∃ tx ∈ scanTxs [exBlock2, exBlock1, exGenesis], p.1 = hexEncodeToString tx.ID) ∧
      (∀ k, m.get k = none ↔
        ∀ pre tx post, scanTxs [exBlock2, exBlock1, exGenesis] = pre ++ tx :: post →
          hexEncodeToString tx.ID = k → kept (recorded toyCodec pre k) 0 tx.Outputs = []) :=
  FindUTXO_entries toyCodec 3 exLedger2 [exBlock2, exBlock1, exGenesis]
    (exLedger2_reached.chainBlocks toyCodec_lawful)

theorem exLedger3_add :
    exLedger1.AddBlock toyCodec 1 [exDup] = (.ok exBlock3, exLedger3) := by rfl

/-- C20 as stated fails: `exLedger3` is built by `InitBlockchain` and two successful
`AddBlock` calls, so its chain is well formed; the genesis coinbase transaction, last in
the scan, has its only output skipped as spent by the input of `exPay`, visited before it;
and yet the map that `FindUTXO` returns has the key of its ID, because the other
transaction `exDup` of the tip block has the same ID and an output that is not spent. -/
theorem FindUTXO_entries_counterexample :
    Reached toyCodec "A" [exBlock3, exBlock1, exGenesis] exLedger3 ∧
    chainBlocks toyCodec 3 exLedger3.Iterator = .ok [exBlock3, exBlock1, exGenesis] ∧
    scanTxs [exBlock3, exBlock1, exGenesis] = [exDup, exPay] ++ exCoinbase :: [] ∧
    exDup ≠ exCoinbase ∧ exPay ≠ exCoinbase ∧
    kept (recorded toyCodec [exDup, exPay] (hexEncodeToString exCoinbase.ID)) 0
      exCoinbase.Outputs = [] ∧
    (exLedger3.FindUTXO toyCodec 3).map
      (fun m => m.get (hexEncodeToString exCoinbase.ID)) = .ok (some ⟨exDup.Outputs⟩) :=
  ⟨Reached.add exLedger1_reached exLedger3_add,
    (Reached.add exLedger1_reached exLedger3_add).chainBlocks toyCodec_lawful,
    by decide, by decide, by decide, by decide, by decide⟩

end GoBlockchain
